import Mathlib

/-!
RMCS forwarding layer: CAN-over-USB field codec, transmit buffer pool, serial package framer.

Shallow embedding of
* `rmcs_core/src/hardware/forwarder/cboard.hpp` (`CBoard`, `CBoard::TransmitBuffer`)
* `serial_deliver/include/usb_cdc_package_deliver.hpp` (`PackageContainer`, `PackageDeliver`)

Conventions of the embedding
* bytes and machine words are natural numbers; a store into a bit-field or a fixed width
  integer truncates explicitly;
* bit-fields are laid out as GCC and Clang do on a little-endian target: the first declared
  bit-field occupies the least significant bits of its storage unit, and multi-byte storage
  units are stored least significant byte first;
* every mutable object is passed explicitly: a function of the source becomes a function from
  the state before to the state after;
* calls into libusb that hand a buffer to the device are recorded in a log (`submitted`).
-/

namespace rmcs_core.hardware.forwarder

/-! ## Bit-fields and byte strings -/

/-- Value of the bit-field of `width` bits that starts at bit `off` of the storage unit `w`. -/
def getBitField (w off width : Nat) : Nat :=
  (w / 2 ^ off) % 2 ^ width

/-- Storage unit `w` after the assignment of `val` to the bit-field of `width` bits that starts
at bit `off`; the value is truncated to the width of the field, the other bits are kept. -/
def setBitField (w off width val : Nat) : Nat :=
  w - getBitField w off width * 2 ^ off + (val % 2 ^ width) * 2 ^ off

/-- Conversion of an `int` value to an unsigned bit-field or integer of `width` bits. -/
def truncateInt (width : Nat) (v : Int) : Nat :=
  (v % 2 ^ width).toNat

/-- Conversion of `bool` to an integer. -/
def boolToNat (b : Bool) : Nat :=
  if b then 1 else 0

/-- The `k` bytes of the object representation of the unsigned integer `w`, least significant
byte first (what `memcpy(dst, &w, k)` copies on a little-endian host). -/
def le_bytes : Nat → Nat → List Nat
  | 0, _ => []
  | k + 1, w => w % 256 :: le_bytes k (w / 256)

/-- The unsigned integer whose object representation is the byte string `bs`, least
significant byte first. -/
def from_le : List Nat → Nat
  | [] => 0
  | b :: bs => b + 256 * from_le bs

/-- The `k` bytes of the memory `mem` that start at address `p`. -/
def mem_bytes (mem : Nat → Nat) (p : Nat) : Nat → List Nat
  | 0 => []
  | k + 1 => mem p :: mem_bytes mem (p + 1) k

/-- Byte array `buf` after `bs` has been stored at offset `off`. -/
def write_bytes (buf : List Nat) (off : Nat) (bs : List Nat) : List Nat :=
  buf.take off ++ bs ++ buf.drop (off + bs.length)

/-! ## Field layout (cboard.hpp 226-280) -/

/-- Enumerator `StatusId::CAN1`. -/
def StatusId.CAN1 : Nat := 2
/-- Enumerator `StatusId::CAN2`. -/
def StatusId.CAN2 : Nat := 3
/-- Enumerator `CommandId::CAN1`. -/
def CommandId.CAN1 : Nat := 2
/-- Enumerator `CommandId::CAN2`. -/
def CommandId.CAN2 : Nat := 3

/-- Size of the packed struct `FieldHeader` (4 + 1 + 1 + 1 bits). -/
def sizeof_FieldHeader : Nat := 1
/-- Size of the packed struct `CanStandardId` (11 + 3 bits). -/
def sizeof_CanStandardId : Nat := 2
/-- Size of the packed struct `CanExtendedId` (29 + 3 bits). -/
def sizeof_CanExtendedId : Nat := 4

/-! ## Receive direction (cboard.hpp 111-224) -/

/-- The two virtual receive callbacks of `CBoard`. -/
inductive ReceiveCallback where
  | can1_receive_callback
  | can2_receive_callback
  deriving DecidableEq, Repr

/-- One invocation of a receive callback with its five arguments. -/
structure CallbackCall where
  callback : ReceiveCallback
  can_id : Nat
  can_data : Nat
  is_extended_can_id : Bool
  is_remote_transmission : Bool
  can_data_length : Nat
  deriving DecidableEq, Repr

/-- Embedding of `CBoard::read_can_buffer`. `mem` is the memory that starts at
`receive_buffer_`, `buffer` the offset of the cursor in it, and `uninit` the indeterminate
initial value of the local `can_data`, of which `memcpy` overwrites only the low
`can_data_length` bytes. The function performs no comparison with the end of the received
bytes. It returns the callback invocation it makes and the advanced cursor. -/
def read_can_buffer (mem : Nat → Nat) (buffer : Nat) (callback : ReceiveCallback)
    (uninit : Nat) : CallbackCall × Nat :=
  let header := mem buffer
  let buffer := buffer + sizeof_FieldHeader
  let is_extended_can_id := getBitField header 4 1 != 0
  let is_remote_transmission := getBitField header 5 1 != 0
  let has_can_data := getBitField header 6 1 != 0
  let idw :=
    if is_extended_can_id then
      let ext_id := from_le (mem_bytes mem buffer sizeof_CanExtendedId)
      (buffer + sizeof_CanExtendedId, getBitField ext_id 0 29,
        if has_can_data then getBitField ext_id 29 3 + 1 else 0)
    else
      let std_id := from_le (mem_bytes mem buffer sizeof_CanStandardId)
      (buffer + sizeof_CanStandardId, getBitField std_id 0 11,
        if has_can_data then getBitField std_id 11 3 + 1 else 0)
  let buffer := idw.1
  let can_id := idw.2.1
  let can_data_length := idw.2.2
  let can_data :=
    from_le (mem_bytes mem buffer can_data_length)
      + (uninit / 256 ^ can_data_length) * 256 ^ can_data_length
  (⟨callback, can_id, can_data, is_extended_can_id, is_remote_transmission, can_data_length⟩,
    buffer + can_data_length)

/-- The `while (iterator < sentinel)` loop of `usb_receive_complete_callback` (164-176).
Returns the callbacks invoked, in order, and the cursor at loop exit; `none` when the fuel is
exhausted. `uninit p` is the indeterminate value of `can_data` in the call made at cursor `p`. -/
def field_walk (mem : Nat → Nat) (sentinel : Nat) (uninit : Nat → Nat) :
    Nat → Nat → Option (List CallbackCall × Nat)
  | 0, _ => none
  | fuel + 1, iterator =>
    if iterator < sentinel then
      let field_id := getBitField (mem iterator) 0 4
      if field_id = StatusId.CAN1 then
        let r := read_can_buffer mem iterator .can1_receive_callback (uninit iterator)
        (field_walk mem sentinel uninit fuel r.2).map fun w => (r.1 :: w.1, w.2)
      else if field_id = StatusId.CAN2 then
        let r := read_can_buffer mem iterator .can2_receive_callback (uninit iterator)
        (field_walk mem sentinel uninit fuel r.2).map fun w => (r.1 :: w.1, w.2)
      else
        some ([], iterator)
    else
      some ([], iterator)

/-- Values of `libusb_transfer_status`. -/
inductive TransferStatus where
  | LIBUSB_TRANSFER_COMPLETED
  | LIBUSB_TRANSFER_ERROR
  | LIBUSB_TRANSFER_TIMED_OUT
  | LIBUSB_TRANSFER_CANCELLED
  | LIBUSB_TRANSFER_STALL
  | LIBUSB_TRANSFER_NO_DEVICE
  | LIBUSB_TRANSFER_OVERFLOW
  deriving DecidableEq, Repr

/-- The error messages of `usb_receive_complete_callback`. -/
inductive ReceiveError where
  | no_data
  | transfer_not_completed
  | unexpected_header (byte : Nat)
  | package_without_body
  | unexpected_field_id (offset : Nat) (byte : Nat)
  | field_reading_out_of_bounds (excess : Nat)
  deriving DecidableEq, Repr

/-- What one run of `usb_receive_complete_callback` did. -/
structure ReceiveOutcome where
  /-- Receive callbacks invoked, in order. -/
  callbacks : List CallbackCall
  /-- Error message logged, if any. -/
  error : Option ReceiveError
  /-- Number of `libusb_submit_transfer` calls on the receive transfer. -/
  resubmitted : Nat
  /-- Whether `libusb_free_transfer` was called on the receive transfer. -/
  freed : Bool
  /-- Value of `active_transfer_count_` at return. -/
  active_transfer_count_ : Int
  deriving DecidableEq, Repr

/-- Embedding of `CBoard::usb_receive_complete_callback`. `status` and `actual_length` are
the fields of the completed transfer, `mem` the memory starting at `receive_buffer_`.
`none` only when the fuel given to the field walk is exhausted. -/
def usb_receive_complete_callback (active_transfer_count_ : Int) (status : TransferStatus)
    (actual_length : Nat) (mem : Nat → Nat) (uninit : Nat → Nat) : Option ReceiveOutcome :=
  if status = .LIBUSB_TRANSFER_CANCELLED then
    some ⟨[], none, 0, true, active_transfer_count_ - 1⟩
  else
    -- from here on `resubmit_transfer` runs at every exit
    let iterator := 0
    let sentinel := iterator + actual_length
    if iterator = sentinel then
      some ⟨[], some .no_data, 1, false, active_transfer_count_⟩
    else if status ≠ .LIBUSB_TRANSFER_COMPLETED then
      some ⟨[], some .transfer_not_completed, 1, false, active_transfer_count_⟩
    else if mem iterator ≠ 0xAE then
      some ⟨[], some (.unexpected_header (mem iterator)), 1, false, active_transfer_count_⟩
    else
      let iterator := iterator + 1
      if iterator = sentinel then
        some ⟨[], some .package_without_body, 1, false, active_transfer_count_⟩
      else
        (field_walk mem sentinel uninit (actual_length + 1) iterator).map fun w =>
          let iterator := w.2
          if iterator ≠ sentinel then
            if iterator < sentinel then
              ⟨w.1, some (.unexpected_field_id iterator (mem iterator)), 1, false,
                active_transfer_count_⟩
            else
              ⟨w.1, some (.field_reading_out_of_bounds (iterator - sentinel)), 1, false,
                active_transfer_count_⟩
          else
            ⟨w.1, none, 1, false, active_transfer_count_⟩

/-! ## Transmit direction (cboard.hpp 329-470) -/

/-- The part of a `libusb_transfer` that `TransmitBuffer` uses: `handle` identifies the
transfer object, `buffer` is its 64-byte array and `length` its logical length. -/
structure Transfer where
  handle : Nat
  buffer : List Nat
  length : Nat
  deriving DecidableEq, Repr

/-- Modelled from the spec: `RingBuffer` of `hardware/ring_buffer.hpp`, which is not part of
the sources at hand. The free set is a fixed-capacity ring; `front` peeks without removing,
`pop_front` removes the head and hands it to the caller's action, `push_back` returns an
element to the tail (refused when the ring is full). -/
structure RingBuffer (α : Type) where
  capacity : Nat
  items : List α
  deriving DecidableEq, Repr

/-- Peek at the head of the ring. -/
def RingBuffer.front {α : Type} (r : RingBuffer α) : Option α :=
  r.items.head?

/-- Remove the head of the ring; the caller applies its action to the removed element. -/
def RingBuffer.pop_front {α : Type} (r : RingBuffer α) : Option (α × RingBuffer α) :=
  match r.items with
  | [] => none
  | x :: rest => some (x, { r with items := rest })

/-- Append at the tail of the ring unless it is full. -/
def RingBuffer.push_back {α : Type} (r : RingBuffer α) (x : α) : Bool × RingBuffer α :=
  if r.items.length < r.capacity then (true, { r with items := r.items ++ [x] }) else (false, r)

/-- Append `count` generated elements at the tail, stopping when the ring is full. -/
def RingBuffer.push_back_multi {α : Type} (r : RingBuffer α) (generate : Nat → α) :
    Nat → RingBuffer α
  | 0 => r
  | count + 1 =>
    let r1 := RingBuffer.push_back_multi r generate count
    (r1.push_back (generate count)).2

/-- State of a `CBoard::TransmitBuffer` together with the counter of its `CBoard`.
`submitted` records every transfer passed to `libusb_submit_transfer`, oldest first, as it
was at the time of the call. -/
structure TransmitBuffer where
  free_transfers_ : RingBuffer Transfer
  submitted : List Transfer
  active_transfer_count_ : Int
  deriving DecidableEq, Repr

/-- Embedding of the constructor `TransmitBuffer::TransmitBuffer`. `uninit i j` is the
indeterminate initial value of byte `j` of the array allocated for transfer `i`. -/
def TransmitBuffer.new (active_transfer_count_ : Int) (alloc_transfer_count : Nat)
    (uninit : Nat → Nat → Nat) : TransmitBuffer :=
  { free_transfers_ :=
      RingBuffer.push_back_multi ⟨alloc_transfer_count, []⟩
        (fun i => ⟨i, ((List.range 64).map (uninit i)).set 0 0x81, 1⟩) alloc_transfer_count
    submitted := []
    active_transfer_count_ := active_transfer_count_ + alloc_transfer_count }

/-- Embedding of `TransmitBuffer::trigger_transmission_nocheck`. -/
def trigger_transmission_nocheck (s : TransmitBuffer) : Bool × TransmitBuffer :=
  match s.free_transfers_.pop_front with
  | none => (false, s)
  | some (transfer, ring) =>
    (true, { s with free_transfers_ := ring, submitted := s.submitted ++ [transfer] })

/-- Embedding of `TransmitBuffer::trigger_transmission`. -/
def trigger_transmission (s : TransmitBuffer) : Bool × TransmitBuffer :=
  match s.free_transfers_.front with
  | none => (false, s)
  | some front => if front.length ≤ 1 then (false, s) else trigger_transmission_nocheck s

/-- The byte that lines 418-423 of `add_can_transmission` store as `FieldHeader`. -/
def make_field_header (field_id : Nat) (is_extended_can_id is_remote_transmission : Bool)
    (can_data_length : Nat) : Nat :=
  let header := 0
  let header := setBitField header 0 4 field_id
  let header := setBitField header 4 1 (boolToNat is_extended_can_id)
  let header := setBitField header 5 1 (boolToNat is_remote_transmission)
  setBitField header 6 1 (boolToNat (can_data_length != 0))

/-- The storage unit that lines 432-435 store as `CanStandardId`. -/
def make_std_id (can_id can_data_length : Nat) : Nat :=
  let std_id := 0
  let std_id := setBitField std_id 0 11 can_id
  setBitField std_id 11 3 (truncateInt 3 ((can_data_length : Int) - 1))

/-- The storage unit that lines 427-430 store as `CanExtendedId`. -/
def make_ext_id (can_id can_data_length : Nat) : Nat :=
  let ext_id := 0
  let ext_id := setBitField ext_id 0 29 can_id
  setBitField ext_id 29 3 (truncateInt 3 ((can_data_length : Int) - 1))

/-- The field size computed at lines 405-407. -/
def field_size_of (is_extended_can_id : Bool) (can_data_length : Nat) : Nat :=
  sizeof_FieldHeader
    + (if is_extended_can_id then sizeof_CanExtendedId else sizeof_CanStandardId)
    + can_data_length

/-- Lines 411-412 and 417-440 of `add_can_transmission`: the length of `transfer` grows by
the field size and header, identifier word and data are stored at the old length. -/
def write_field (transfer : Transfer) (field_id can_id can_data : Nat)
    (is_extended_can_id is_remote_transmission : Bool) (can_data_length : Nat) : Transfer :=
  let buffer := transfer.length
  let mem := transfer.buffer
  let mem := write_bytes mem buffer
    [make_field_header field_id is_extended_can_id is_remote_transmission can_data_length]
  let buffer := buffer + sizeof_FieldHeader
  let w :=
    if is_extended_can_id then
      (write_bytes mem buffer (le_bytes sizeof_CanExtendedId (make_ext_id can_id can_data_length)),
        buffer + sizeof_CanExtendedId)
    else
      (write_bytes mem buffer (le_bytes sizeof_CanStandardId (make_std_id can_id can_data_length)),
        buffer + sizeof_CanStandardId)
  let mem := write_bytes w.1 w.2 (le_bytes can_data_length can_data)
  { transfer with
    buffer := mem
    length := transfer.length + field_size_of is_extended_can_id can_data_length }

/-- The `while (true)` loop of `add_can_transmission` followed by the stores of the field.
`none` only when the fuel is exhausted. -/
def add_can_transmission_loop (field_id can_id can_data : Nat)
    (is_extended_can_id is_remote_transmission : Bool) (can_data_length : Nat) :
    Nat → TransmitBuffer → Option (Bool × TransmitBuffer)
  | 0, _ => none
  | fuel + 1, s =>
    match s.free_transfers_.front with
    | none => some (false, s)
    | some transfer =>
      if transfer.length + field_size_of is_extended_can_id can_data_length > 64 then
        add_can_transmission_loop field_id can_id can_data is_extended_can_id
          is_remote_transmission can_data_length fuel (trigger_transmission_nocheck s).2
      else
        some (true,
          { s with
            free_transfers_ :=
              { s.free_transfers_ with
                items :=
                  write_field transfer field_id can_id can_data is_extended_can_id
                      is_remote_transmission can_data_length
                    :: s.free_transfers_.items.tail } })

/-- Embedding of `TransmitBuffer::add_can_transmission`: the loop is run with one unit of
fuel per element of the free set and one more. -/
def add_can_transmission (s : TransmitBuffer) (field_id can_id can_data : Nat)
    (is_extended_can_id is_remote_transmission : Bool) (can_data_length : Nat) :
    Option (Bool × TransmitBuffer) :=
  add_can_transmission_loop field_id can_id can_data is_extended_can_id is_remote_transmission
    can_data_length (s.free_transfers_.items.length + 1) s

/-- Embedding of `TransmitBuffer::add_can1_transmission`. -/
def add_can1_transmission (s : TransmitBuffer) (can_id can_data : Nat)
    (is_extended_can_id is_remote_transmission : Bool) (can_data_length : Nat) :
    Option (Bool × TransmitBuffer) :=
  add_can_transmission s CommandId.CAN1 can_id can_data is_extended_can_id
    is_remote_transmission can_data_length

/-- Embedding of `TransmitBuffer::add_can2_transmission`. -/
def add_can2_transmission (s : TransmitBuffer) (can_id can_data : Nat)
    (is_extended_can_id is_remote_transmission : Bool) (can_data_length : Nat) :
    Option (Bool × TransmitBuffer) :=
  add_can_transmission s CommandId.CAN2 can_id can_data is_extended_can_id
    is_remote_transmission can_data_length

/-- The bytes that `write_field` stores, in address order: header, identifier word, data. -/
def field_bytes (field_id can_id can_data : Nat)
    (is_extended_can_id is_remote_transmission : Bool) (can_data_length : Nat) : List Nat :=
  make_field_header field_id is_extended_can_id is_remote_transmission can_data_length ::
    ((if is_extended_can_id then
        le_bytes sizeof_CanExtendedId (make_ext_id can_id can_data_length)
      else
        le_bytes sizeof_CanStandardId (make_std_id can_id can_data_length))
      ++ le_bytes can_data_length can_data)

/-- The arguments of one call of `add_can_transmission`. -/
structure CanFrame where
  field_id : Nat
  can_id : Nat
  can_data : Nat
  is_extended_can_id : Bool
  is_remote_transmission : Bool
  can_data_length : Nat
  deriving DecidableEq, Repr

/-- One call of `add_can_transmission` with the arguments `f`. -/
def add_frame (s : TransmitBuffer) (f : CanFrame) : Option (Bool × TransmitBuffer) :=
  add_can_transmission s f.field_id f.can_id f.can_data f.is_extended_can_id
    f.is_remote_transmission f.can_data_length

/-- A sequence of calls of `add_can_transmission`: the values returned, in call order, and
the state after the last call. -/
def add_frames : TransmitBuffer → List CanFrame → Option (List Bool × TransmitBuffer)
  | s, [] => some ([], s)
  | s, f :: fs =>
    match add_frame s f with
    | none => none
    | some r => (add_frames r.2 fs).map fun q => (r.1 :: q.1, q.2)

/-- The wire format of one field in the words of the specification: a byte holding the bus
tag in its low 4 bits, the extended flag at bit 4, the remote flag at bit 5 and the has-data
flag at bit 6; then the identifier word, little-endian, 16 bits wide with the identifier in
the low 11 bits and length minus one at bit 11 for a standard frame, 32 bits wide with the
identifier in the low 29 bits and length minus one at bit 29 for an extended frame; then the
`n` low-order bytes of the data. -/
def spec_wire_field (t id data : Nat) (extended remote : Bool) (n : Nat) : List Nat :=
  let flags :=
    (t % 16) ||| (boolToNat extended <<< 4) ||| (boolToNat remote <<< 5)
      ||| (boolToNat (n != 0) <<< 6)
  let len_minus_one := (((n : Int) - 1) % 8).toNat
  let id_word :=
    if extended then
      let w := (id % 2 ^ 29) ||| (len_minus_one <<< 29)
      [w % 256, w / 256 % 256, w / 65536 % 256, w / 16777216 % 256]
    else
      let w := (id % 2 ^ 11) ||| (len_minus_one <<< 11)
      [w % 256, w / 256 % 256]
  flags :: (id_word ++ (List.range n).map fun i => data / 256 ^ i % 256)

/-- A pool of one transfer whose array is zero behind the marker byte. -/
def pool_of_one : TransmitBuffer :=
  ⟨⟨1, [⟨0, 0x81 :: List.replicate 63 0, 1⟩]⟩, [], 1⟩

/-- The pool `pool_of_one` after the standard data frame `0x201` with the eight data bytes
`0x1122334455667788` has been added for CAN1. -/
def pool_of_one_after : TransmitBuffer :=
  ⟨⟨1, [⟨0, [0x81, 0x42, 0x01, 0x3A, 0x88, 0x77, 0x66, 0x55, 0x44, 0x33, 0x22, 0x11]
      ++ List.replicate 52 0, 12⟩]⟩, [], 1⟩

/-- The encoded fields of a sequence of frames, one after the other in call order. -/
def fields_bytes : List CanFrame → List Nat
  | [] => []
  | f :: fs =>
    field_bytes f.field_id f.can_id f.can_data f.is_extended_can_id f.is_remote_transmission
        f.can_data_length ++ fields_bytes fs

/-- The total size of the encoded fields of a sequence of frames. -/
def fields_size : List CanFrame → Nat
  | [] => 0
  | f :: fs => field_size_of f.is_extended_can_id f.can_data_length + fields_size fs

/-- The standard data frame `0x201` for CAN1 with eight data bytes (field size 11). -/
def frame_std8 : CanFrame :=
  ⟨CommandId.CAN1, 0x201, 0x1122334455667788, false, false, 8⟩

/-- The extended data frame `0x1ABCDEF` for CAN2 with eight data bytes (field size 13). -/
def frame_ext8 : CanFrame :=
  ⟨CommandId.CAN2, 0x1ABCDEF, 0x0102030405060708, true, false, 8⟩

/-- The extended data frame `0x1ABCDEF` for CAN2 with seven data bytes (field size 12). -/
def frame_ext7 : CanFrame :=
  ⟨CommandId.CAN2, 0x1ABCDEF, 0x01020304050607, true, false, 7⟩

/-- A pool of one transfer that already holds five fields of 11 bytes. -/
def pool_of_one_full : TransmitBuffer :=
  ⟨⟨1, [⟨0, 0x81 :: fields_bytes (List.replicate 5 frame_std8) ++ List.replicate 8 0, 56⟩]⟩,
    [], 1⟩

/-- Embedding of `TransmitBuffer::usb_transmit_complete_callback` for the completed
`transfer`; `actual_length` only decides whether the warning is logged (second component). -/
def usb_transmit_complete_callback (s : TransmitBuffer) (transfer : Transfer)
    (status : TransferStatus) (actual_length : Nat) : TransmitBuffer × Bool :=
  if status = .LIBUSB_TRANSFER_CANCELLED then
    ({ s with active_transfer_count_ := s.active_transfer_count_ - 1 }, false)
  else
    ({ s with
        free_transfers_ := (s.free_transfers_.push_back { transfer with length := 1 }).2 },
      decide (actual_length ≠ transfer.length))

/-- A fresh pool of two transfers after five standard frames of eight bytes: the head holds
five fields of 11 bytes, the second transfer is empty. -/
def pool_of_two_full : TransmitBuffer :=
  ⟨⟨2, [⟨0, 0x81 :: fields_bytes (List.replicate 5 frame_std8) ++ List.replicate 8 0, 56⟩,
      ⟨1, 0x81 :: List.replicate 63 0, 1⟩]⟩, [], 2⟩

/-- The frame that an invocation of a receive callback carries: the bus of the callback, the
identifier, the flags, the data length and the `can_data_length` low-order bytes of the data
(the bytes of `can_data` above them are indeterminate). -/
def frame_of_call (c : CallbackCall) : CanFrame :=
  ⟨if c.callback = .can1_receive_callback then CommandId.CAN1 else CommandId.CAN2, c.can_id,
    c.can_data % 256 ^ c.can_data_length, c.is_extended_can_id, c.is_remote_transmission,
    c.can_data_length⟩

/-- The frame `f` with its data cut to the `can_data_length` low-order bytes. -/
def frame_payload (f : CanFrame) : CanFrame :=
  { f with can_data := f.can_data % 256 ^ f.can_data_length }

/-- The invocations that the field walk makes for the fields of `frames` stored from offset
`p` on: one per frame, in order, with the bytes of `can_data` above the data length taken
from the indeterminate value at the offset of the field. -/
def expected_calls (uninit : Nat → Nat) : Nat → List CanFrame → List CallbackCall
  | _, [] => []
  | p, f :: fs =>
    ⟨if f.field_id = CommandId.CAN1 then .can1_receive_callback else .can2_receive_callback,
      f.can_id,
      f.can_data % 256 ^ f.can_data_length
        + (uninit p / 256 ^ f.can_data_length) * 256 ^ f.can_data_length,
      f.is_extended_can_id, f.is_remote_transmission, f.can_data_length⟩
      :: expected_calls uninit (p + field_size_of f.is_extended_can_id f.can_data_length) fs

/-- The bytes of a transmit buffer as they arrive in the receive array: the first
`transfer.length` bytes with byte 0 replaced by the receive header `0xAE`, followed by
whatever the receive array holds behind them. -/
def received_from (transfer : Transfer) (stale : List Nat) : Nat → Nat :=
  fun i => (((transfer.buffer.take transfer.length).set 0 0xAE) ++ stale).getD i 0

/-- The pool states that the constructor, calls of `add_can_transmission` and of
`trigger_transmission`, and completions of submitted transfers lead to. The second index is
the list of the transfers in flight: submitted and not yet completed. -/
inductive Reachable : TransmitBuffer → List Transfer → Prop where
  | new (cnt : Int) (N : Nat) (uninit : Nat → Nat → Nat) :
    Reachable (TransmitBuffer.new cnt N uninit) []
  | add (s s' : TransmitBuffer) (fl : List Transfer) (field_id can_id can_data : Nat)
      (is_extended_can_id is_remote_transmission : Bool) (can_data_length : Nat) (b : Bool) :
    Reachable s fl →
    add_can_transmission s field_id can_id can_data is_extended_can_id is_remote_transmission
      can_data_length = some (b, s') →
    Reachable s' (fl ++ s'.submitted.drop s.submitted.length)
  | flush (s : TransmitBuffer) (fl : List Transfer) :
    Reachable s fl →
    Reachable (trigger_transmission s).2
      (fl ++ (trigger_transmission s).2.submitted.drop s.submitted.length)
  | complete (s : TransmitBuffer) (fl : List Transfer) (transfer : Transfer)
      (status : TransferStatus) (actual_length : Nat) :
    Reachable s fl → transfer ∈ fl →
    Reachable (usb_transmit_complete_callback s transfer status actual_length).1
      (fl.erase transfer)

end rmcs_core.hardware.forwarder

namespace usb_cdc

open rmcs_core.hardware.forwarder (write_bytes)

/-! ## Serial packages (usb_cdc_package_deliver.hpp) -/

/-- Constant `package_size_max`. -/
def package_size_max : Nat := 64
/-- Constant `package_head`. -/
def package_head : Nat := 0xAF
/-- Size of `PackageStaticPart` (head, type, index, data_size). -/
def sizeof_PackageStaticPart : Nat := 4
/-- Size of `package_head_t`. -/
def sizeof_package_head_t : Nat := 1
/-- Size of `package_verify_code_t`. -/
def sizeof_package_verify_code_t : Nat := 1
/-- Number of values of `size_t`. -/
def SIZE_MAX_plus_1 : Nat := 2 ^ 64

/-- A `Package`: its byte array. The member `next` is represented by the position of the
package in the chain of its container. -/
structure Package where
  buffer : List Nat
  deriving DecidableEq, Repr

/-- A value-initialised `Package` (`std::make_unique<Package>()`): all bytes zero. -/
def Package.zero : Package :=
  ⟨List.replicate package_size_max 0⟩

/-- State of a `PackageContainer`. `chain` lists the packages reached from `first_package_`
by following `next`; `last_package_` is the last of them. -/
structure PackageContainer where
  count_ : Nat
  max_keep_count_ : Nat
  chain : List Package
  deriving DecidableEq, Repr

/-- Constructor `PackageContainer(max_keep_count)`. -/
def PackageContainer.new (max_keep_count : Nat) : PackageContainer :=
  ⟨0, max_keep_count, []⟩

/-- Embedding of `PackageContainer::pop`: the returned package (`none` for `nullptr`) and
the container afterwards. `push` keeps at least `count_` packages linked, so the chain is
not empty when `count_` is not zero; the source would dereference a null pointer there. -/
def PackageContainer.pop (c : PackageContainer) : Option Package × PackageContainer :=
  if c.count_ = 0 then (none, c)
  else
    match c.chain with
    | [] => (none, c)
    | package :: rest => (some package, { c with chain := rest, count_ := c.count_ - 1 })

/-- Embedding of `PackageContainer::push`. -/
def PackageContainer.push (c : PackageContainer) (pointer : Package) : PackageContainer :=
  let c1 : PackageContainer :=
    if c.count_ = 0 then { c with chain := [pointer] }
    else { c with chain := c.chain ++ [pointer] }
  if c1.count_ = c1.max_keep_count_ then c1.pop.2
  else { c1 with count_ := c1.count_ + 1 }

/-- Values of `PackageDeliver::ReceiveResult`. -/
inductive ReceiveResult where
  | SUCCESS
  | TIMEOUT
  | INVAILD_HEADER
  | INVAILD_VERIFY_DEGIT
  deriving DecidableEq, Repr

/-- State of a `PackageDeliver`. `serial_` holds the bytes the port can hand out without
waiting (the port is opened with a zero timeout), `subscribed_containers_` the entries of
the `std::map`. -/
structure PackageDeliver where
  serial_ : List Nat
  subscribed_containers_ : List (Nat × PackageContainer)
  receiving_package : Package
  received_size_ : Nat
  deriving DecidableEq, Repr

/-- Constructor of `PackageDeliver` on a port with the pending bytes `pending`. -/
def PackageDeliver.new (pending : List Nat) : PackageDeliver :=
  ⟨pending, [], Package.zero, 0⟩

/-- Lookup `subscribed_containers_.find(type_code)`. -/
def find_container (m : List (Nat × PackageContainer)) (type_code : Nat) :
    Option PackageContainer :=
  (m.find? fun e => e.1 = type_code).map Prod.snd

/-- Replace the container stored for `type_code`. -/
def set_container (m : List (Nat × PackageContainer)) (type_code : Nat)
    (c : PackageContainer) : List (Nat × PackageContainer) :=
  m.map fun e => if e.1 = type_code then (e.1, c) else e

/-- Embedding of `PackageDeliver::subscribe`; `insert` leaves the map unchanged when the key
is already present. -/
def subscribe (s : PackageDeliver) (type_code : Nat) (max_keep_count : Nat) : PackageDeliver :=
  match find_container s.subscribed_containers_ type_code with
  | some _ => s
  | none =>
    { s with
      subscribed_containers_ :=
        s.subscribed_containers_ ++ [(type_code, PackageContainer.new max_keep_count)] }

/-- The copy loop `for (i = 0; i < received_size_; ++i) buffer[i] = head_pointer[i]`. -/
def shift_down (buffer : List Nat) (head_pointer : Nat) (received_size_ : Nat) : List Nat :=
  (List.range received_size_).foldl (fun b i => b.set i (b.getD (head_pointer + i) 0)) buffer

/-- The `while (true)` loop at lines 201-212 of `receive_static_part`; the first argument is
`received_size_`, which the loop decrements. Returns the buffer and `received_size_`. -/
def resync_loop (buffer : List Nat) : Nat → Nat → List Nat × Nat
  | 0, head_pointer => (shift_down buffer head_pointer 0, 0)
  | received_size_ + 1, head_pointer =>
    if buffer.getD head_pointer 0 = package_head then
      (shift_down buffer head_pointer (received_size_ + 1), received_size_ + 1)
    else
      resync_loop buffer received_size_ (head_pointer + 1)

/-- Embedding of `PackageDeliver::receive_static_part`. -/
def receive_static_part (s : PackageDeliver) : ReceiveResult × PackageDeliver :=
  if s.received_size_ ≥ sizeof_PackageStaticPart then (.SUCCESS, s)
  else
    let got := s.serial_.take (sizeof_PackageStaticPart - s.received_size_)
    let s : PackageDeliver :=
      { s with
        serial_ := s.serial_.drop (sizeof_PackageStaticPart - s.received_size_)
        receiving_package := ⟨write_bytes s.receiving_package.buffer s.received_size_ got⟩
        received_size_ := s.received_size_ + got.length }
    if s.received_size_ < sizeof_package_head_t then (.TIMEOUT, s)
    else if s.receiving_package.buffer.getD 0 0 = package_head then
      if s.received_size_ = sizeof_PackageStaticPart then (.SUCCESS, s) else (.TIMEOUT, s)
    else
      let r := resync_loop s.receiving_package.buffer (s.received_size_ - 1) 1
      (.INVAILD_HEADER, { s with receiving_package := ⟨r.1⟩, received_size_ := r.2 })

/-- How a run of `update` ends: it returns, or it stores past the end of the 64-byte array
of the package being received, or the fuel of the model is exhausted. -/
inductive UpdateResult where
  | returned (s : PackageDeliver)
  | buffer_overrun
  | out_of_fuel
  deriving DecidableEq, Repr

/-- Embedding of `PackageDeliver::update`; one unit of fuel per iteration of `while (true)`. -/
def update : Nat → PackageDeliver → UpdateResult
  | 0, _ => .out_of_fuel
  | fuel + 1, s =>
    let r := receive_static_part s
    let s := r.2
    match r.1 with
    | .SUCCESS =>
      let data_size := s.receiving_package.buffer.getD 3 0
      let package_real_size :=
        sizeof_PackageStaticPart + data_size + sizeof_package_verify_code_t
      if package_real_size > package_size_max then
        update fuel { s with received_size_ := 0 }
      else
        -- `package_real_size - received_size_` is computed in `size_t`
        let size := (package_real_size + SIZE_MAX_plus_1 - s.received_size_) % SIZE_MAX_plus_1
        let got := s.serial_.take size
        if s.received_size_ + got.length > package_size_max then .buffer_overrun
        else
          let s : PackageDeliver :=
            { s with
              serial_ := s.serial_.drop size
              receiving_package := ⟨write_bytes s.receiving_package.buffer s.received_size_ got⟩
              received_size_ := s.received_size_ + got.length }
          if s.received_size_ < package_real_size then .returned s
          else
            let type := s.receiving_package.buffer.getD 1 0
            match find_container s.subscribed_containers_ type with
            | none => update fuel { s with received_size_ := 0 }
            | some container =>
              update fuel
                { s with
                  subscribed_containers_ :=
                    set_container s.subscribed_containers_ type
                      (container.push s.receiving_package)
                  receiving_package := Package.zero }
    | .TIMEOUT => .returned s
    | .INVAILD_HEADER => update fuel s
    | .INVAILD_VERIFY_DEGIT => update fuel s

/-- How one iteration of the `while (true)` loop of `update` ends: with `continue` or by
reaching the last statement of the loop body (`again`), with `break` (`stop`), or with a
store past the 64 bytes of the array of the package being received. -/
inductive Iteration where
  | again (s : PackageDeliver)
  | stop (s : PackageDeliver)
  | buffer_overrun
  deriving DecidableEq, Repr

/-- Lines 120-137 of `update`: the remaining bytes of the package are read and a complete
package is routed. `s` is the state after `receive_static_part` returned `SUCCESS` for a
package that is not oversize. -/
def receive_payload (s : PackageDeliver) : Iteration :=
  let data_size := s.receiving_package.buffer.getD 3 0
  let package_real_size := sizeof_PackageStaticPart + data_size + sizeof_package_verify_code_t
  let size := (package_real_size + SIZE_MAX_plus_1 - s.received_size_) % SIZE_MAX_plus_1
  let got := s.serial_.take size
  if s.received_size_ + got.length > package_size_max then .buffer_overrun
  else
    let s : PackageDeliver :=
      { s with
        serial_ := s.serial_.drop size
        receiving_package := ⟨write_bytes s.receiving_package.buffer s.received_size_ got⟩
        received_size_ := s.received_size_ + got.length }
    if s.received_size_ < package_real_size then .stop s
    else
      let type := s.receiving_package.buffer.getD 1 0
      match find_container s.subscribed_containers_ type with
      | none => .again { s with received_size_ := 0 }
      | some container =>
        .again
          { s with
            subscribed_containers_ :=
              set_container s.subscribed_containers_ type (container.push s.receiving_package)
            receiving_package := Package.zero }

/-- The body of the `while (true)` loop of `update` (lines 107-144). -/
def update_iteration (s : PackageDeliver) : Iteration :=
  let r := receive_static_part s
  let s := r.2
  match r.1 with
  | .SUCCESS =>
    let data_size := s.receiving_package.buffer.getD 3 0
    let package_real_size := sizeof_PackageStaticPart + data_size + sizeof_package_verify_code_t
    if package_real_size > package_size_max then .again { s with received_size_ := 0 }
    else receive_payload s
  | .TIMEOUT => .stop s
  | .INVAILD_HEADER => .again s
  | .INVAILD_VERIFY_DEGIT => .again s

/-- A call of `PackageContainer::push` or of `PackageContainer::pop`. -/
inductive ContainerCall where
  | push (package : Package)
  | pop
  deriving DecidableEq, Repr

/-- The container after a sequence of calls of `push` and `pop`. -/
def PackageContainer.run (c : PackageContainer) : List ContainerCall → PackageContainer
  | [] => c
  | .push package :: calls => PackageContainer.run (c.push package) calls
  | .pop :: calls => PackageContainer.run c.pop.2 calls

/-- The member `data_size` of the static part of a package. -/
def Package.data_size (p : Package) : Nat :=
  p.buffer.getD 3 0

/-- A package whose array starts with `bytes` and is zero behind them. -/
def package_of (bytes : List Nat) : Package :=
  ⟨bytes ++ List.replicate (package_size_max - bytes.length) 0⟩

/-- The bytes buffered for the package being received once `receive_static_part` has read
from the port: those received before, followed by the bytes the port hands out. -/
def buffered_after_read (s : PackageDeliver) : List Nat :=
  s.receiving_package.buffer.take s.received_size_
    ++ s.serial_.take (sizeof_PackageStaticPart - s.received_size_)

/-- A framer that has buffered the byte `11` and has the bytes `55 AF 02` pending. -/
def framer_out_of_sync : PackageDeliver :=
  ⟨[0x55, 0xAF, 0x02], [], package_of [0x11], 1⟩

/-- The bytes of a complete package on the serial link: head, type, index, data size, the
payload and the verification byte. -/
def package_stream (type index : Nat) (payload : List Nat) (verify : Nat) : List Nat :=
  [package_head, type, index, payload.length] ++ payload ++ [verify]

/-- The array of the package being received once the bytes of a complete package have been
stored at its start; behind them it keeps the bytes of `buffer`. -/
def received_package (type index : Nat) (payload : List Nat) (verify : Nat)
    (buffer : List Nat) : Package :=
  ⟨package_stream type index payload verify ++ buffer.drop (5 + payload.length)⟩

/-- A framer with type 2 subscribed and the header `AF 02 00 3C` (data size 60) followed by
two more bytes pending. -/
def framer_oversize : PackageDeliver :=
  subscribe (PackageDeliver.new [0xAF, 0x02, 0x00, 60, 0x11, 0x22]) 2 1

/-- The framer `framer_oversize` after `receive_static_part` has buffered the header. -/
def framer_oversize_header : PackageDeliver :=
  ⟨[0x11, 0x22], [(2, PackageContainer.new 1)], package_of [0xAF, 0x02, 0x00, 60], 4⟩

/-- A framer with type 2 subscribed and the package `AF 02 00 01 11 5A` followed by one more
byte pending. -/
def framer_one_package : PackageDeliver :=
  subscribe (PackageDeliver.new [0xAF, 0x02, 0x00, 0x01, 0x11, 0x5A, 0x77]) 2 1

end usb_cdc

namespace rmcs_core.hardware.forwarder

/-! ## Arithmetic of the field layout -/

theorem truncateInt_pred (n : Nat) : truncateInt 3 ((n : Int) - 1) = (n + 7) % 8 := by
  unfold truncateInt
  norm_num
  omega

theorem make_field_header_eq (field_id : Nat) (e r : Bool) (n : Nat) :
    make_field_header field_id e r n
      = field_id % 16 + 16 * boolToNat e + 32 * boolToNat r + 64 * boolToNat (n != 0) := by
  have h1 : boolToNat e < 2 := by cases e <;> simp [boolToNat]
  have h2 : boolToNat r < 2 := by cases r <;> simp [boolToNat]
  have h3 : boolToNat (n != 0) < 2 := by cases (n != 0) <;> simp [boolToNat]
  simp only [make_field_header, setBitField, getBitField]
  norm_num
  omega

theorem make_std_id_eq (can_id n : Nat) :
    make_std_id can_id n = can_id % 2048 + 2048 * ((n + 7) % 8) := by
  simp only [make_std_id, setBitField, getBitField, truncateInt_pred]
  norm_num
  omega

theorem make_ext_id_eq (can_id n : Nat) :
    make_ext_id can_id n = can_id % 536870912 + 536870912 * ((n + 7) % 8) := by
  simp only [make_ext_id, setBitField, getBitField, truncateInt_pred]
  norm_num
  omega

theorem from_le_le_bytes (k w : Nat) : from_le (le_bytes k w) = w % 256 ^ k := by
  induction k generalizing w with
  | zero => simp [le_bytes, from_le, Nat.mod_one]
  | succ k ih =>
    simp only [le_bytes, from_le, ih]
    rw [pow_succ, Nat.mul_comm (256 ^ k) 256, Nat.mod_mul]

theorem write_bytes_left (x rest a : List Nat) :
    write_bytes (x ++ rest) x.length a = x ++ a ++ rest.drop a.length := by
  simp [write_bytes, List.take_append_eq_append_take, List.drop_append_eq_append_drop]

theorem write_bytes_split (buf : List Nat) (off : Nat) (a : List Nat) (h : off ≤ buf.length) :
    write_bytes buf off a = buf.take off ++ a ++ (buf.drop off).drop a.length := by
  have h1 : (buf.take off).length = off := by simp [h]
  conv_lhs => rw [← List.take_append_drop off buf]
  conv_lhs => arg 2; rw [← h1]
  rw [write_bytes_left]

theorem write_bytes_write_bytes (buf : List Nat) (off : Nat) (a b : List Nat)
    (h : off ≤ buf.length) :
    write_bytes (write_bytes buf off a) (off + a.length) b = write_bytes buf off (a ++ b) := by
  have h1 : (buf.take off).length = off := by simp [h]
  rw [write_bytes_split buf off a h, write_bytes_split buf off (a ++ b) h]
  have h2 : off + a.length = (buf.take off ++ a).length := by simp [h1]
  rw [h2, write_bytes_left]
  simp [List.drop_drop, Nat.add_comm, Nat.add_assoc]

theorem mem_bytes_mid (b : List Nat) : ∀ (a c : List Nat) (p : Nat), p = a.length →
    mem_bytes (fun i => (a ++ (b ++ c)).getD i 0) p b.length = b := by
  induction b with
  | nil => intro a c p _; rfl
  | cons x b ih =>
    intro a c p hp
    subst hp
    simp only [List.length_cons, mem_bytes]
    have h := ih (a ++ [x]) c (a.length + 1) (by simp)
    simp only [List.append_assoc, List.singleton_append] at h
    simp only [List.cons_append]
    rw [h]
    have hx : (a ++ x :: (b ++ c)).getD a.length 0 = x := by
      rw [List.getD_eq_getElem?_getD, List.getElem?_append_right (le_refl _)]
      simp
    rw [hx]

theorem length_le_bytes (k w : Nat) : (le_bytes k w).length = k := by
  induction k generalizing w with
  | zero => rfl
  | succ k ih => simp [le_bytes, ih]

theorem length_field_bytes (field_id can_id can_data : Nat) (e r : Bool) (n : Nat) :
    (field_bytes field_id can_id can_data e r n).length = field_size_of e n := by
  cases e <;>
    simp [field_bytes, field_size_of, length_le_bytes, sizeof_FieldHeader, sizeof_CanExtendedId,
      sizeof_CanStandardId] <;> omega

theorem write_field_buffer (t : Transfer) (field_id can_id can_data : Nat) (e r : Bool) (n : Nat)
    (h : t.length ≤ t.buffer.length) :
    (write_field t field_id can_id can_data e r n).buffer
      = write_bytes t.buffer t.length (field_bytes field_id can_id can_data e r n) := by
  have hw : ∀ (a b : List Nat) (x : Nat),
      write_bytes (write_bytes (write_bytes t.buffer t.length [x]) (t.length + 1) a)
          (t.length + 1 + a.length) b
        = write_bytes t.buffer t.length (x :: (a ++ b)) := by
    intro a b x
    have h1 := write_bytes_write_bytes t.buffer t.length [x] a h
    simp only [List.length_singleton] at h1
    rw [h1]
    have h2 := write_bytes_write_bytes t.buffer t.length ([x] ++ a) b h
    simp only [List.length_append, List.length_singleton, ← Nat.add_assoc] at h2
    rw [h2]
    simp
  cases e
  · have := hw (le_bytes sizeof_CanStandardId (make_std_id can_id n)) (le_bytes n can_data)
      (make_field_header field_id false r n)
    simp only [length_le_bytes] at this
    simpa [write_field, field_bytes, sizeof_FieldHeader] using this
  · have := hw (le_bytes sizeof_CanExtendedId (make_ext_id can_id n)) (le_bytes n can_data)
      (make_field_header field_id true r n)
    simp only [length_le_bytes] at this
    simpa [write_field, field_bytes, sizeof_FieldHeader] using this

theorem add_can_transmission_loop_char (field_id can_id can_data : Nat) (e r : Bool) (n : Nat) :
    ∀ (fuel : Nat) (s : TransmitBuffer), s.free_transfers_.items.length < fuel →
      ∃ pre post, s.free_transfers_.items = pre ++ post ∧
        (∀ x ∈ pre, 64 < x.length + field_size_of e n) ∧
        ((post = [] ∧
            add_can_transmission_loop field_id can_id can_data e r n fuel s
              = some (false,
                  { s with
                    free_transfers_ := { s.free_transfers_ with items := [] }
                    submitted := s.submitted ++ pre })) ∨
          (∃ t rest, post = t :: rest ∧ t.length + field_size_of e n ≤ 64 ∧
            add_can_transmission_loop field_id can_id can_data e r n fuel s
              = some (true,
                  { s with
                    free_transfers_ :=
                      { s.free_transfers_ with
                        items := write_field t field_id can_id can_data e r n :: rest }
                    submitted := s.submitted ++ pre }))) := by
  intro fuel
  induction fuel with
  | zero => intro s h; omega
  | succ fuel ih =>
    intro s h
    obtain ⟨⟨cap, items⟩, sub, cnt⟩ := s
    cases items with
    | nil =>
      refine ⟨[], [], rfl, by simp, Or.inl ⟨rfl, ?_⟩⟩
      simp [add_can_transmission_loop, RingBuffer.front]
    | cons t rest =>
      by_cases hfull : 64 < t.length + field_size_of e n
      · have hlen : (trigger_transmission_nocheck ⟨⟨cap, t :: rest⟩, sub, cnt⟩).2
            = ⟨⟨cap, rest⟩, sub ++ [t], cnt⟩ := by
          simp [trigger_transmission_nocheck, RingBuffer.pop_front]
        have hstep : add_can_transmission_loop field_id can_id can_data e r n (fuel + 1)
              ⟨⟨cap, t :: rest⟩, sub, cnt⟩
            = add_can_transmission_loop field_id can_id can_data e r n fuel
              ⟨⟨cap, rest⟩, sub ++ [t], cnt⟩ := by
          rw [← hlen]
          simp [add_can_transmission_loop, RingBuffer.front, hfull]
        have hlt : (⟨⟨cap, rest⟩, sub ++ [t], cnt⟩ : TransmitBuffer).free_transfers_.items.length
            < fuel := by
          simp only [List.length_cons] at h
          simp only
          omega
        obtain ⟨pre, post, hsplit, hpre, hres⟩ := ih ⟨⟨cap, rest⟩, sub ++ [t], cnt⟩ hlt
        simp only at hsplit
        refine ⟨t :: pre, post, by simp [hsplit], ?_, ?_⟩
        · intro x hx
          rcases List.mem_cons.mp hx with rfl | hx
          · exact hfull
          · exact hpre x hx
        · rw [hstep]
          rcases hres with ⟨hp, hr⟩ | ⟨t', rest', hp, hfit, hr⟩
          · exact Or.inl ⟨hp, by simpa using hr⟩
          · exact Or.inr ⟨t', rest', hp, hfit, by simpa using hr⟩
      · refine ⟨[], t :: rest, rfl, by simp, Or.inr ⟨t, rest, rfl, by omega, ?_⟩⟩
        simp [add_can_transmission_loop, RingBuffer.front, hfull]


theorem mem_field (a idb db c : List Nat) (h : Nat) :
    (fun i => (a ++ ((h :: (idb ++ db)) ++ c)).getD i 0) a.length = h ∧
    mem_bytes (fun i => (a ++ ((h :: (idb ++ db)) ++ c)).getD i 0) (a.length + 1) idb.length
      = idb ∧
    mem_bytes (fun i => (a ++ ((h :: (idb ++ db)) ++ c)).getD i 0) (a.length + 1 + idb.length)
      db.length = db := by
  refine ⟨?_, ?_, ?_⟩
  · have := mem_bytes_mid [h] a ((idb ++ db) ++ c) a.length rfl
    simp only [List.length_singleton, mem_bytes, List.cons.injEq, and_true] at this
    simpa using this
  · have := mem_bytes_mid idb (a ++ [h]) (db ++ c) (a.length + 1) (by simp)
    simpa using this
  · have := mem_bytes_mid db (a ++ [h] ++ idb) c (a.length + 1 + idb.length)
      (by simp only [List.length_append, List.length_singleton])
    simpa using this

theorem header_bits (x : Nat) (e r d : Bool) (hx : x < 16) :
    (getBitField (x + 16 * boolToNat e + 32 * boolToNat r + 64 * boolToNat d) 4 1 != 0) = e ∧
    (getBitField (x + 16 * boolToNat e + 32 * boolToNat r + 64 * boolToNat d) 5 1 != 0) = r ∧
    (getBitField (x + 16 * boolToNat e + 32 * boolToNat r + 64 * boolToNat d) 6 1 != 0) = d ∧
    getBitField (x + 16 * boolToNat e + 32 * boolToNat r + 64 * boolToNat d) 0 4 = x := by
  simp only [getBitField]
  norm_num
  cases e <;> cases r <;> cases d <;> simp [boolToNat] <;> omega

/-- Decoding the bytes of one encoded field: `read_can_buffer` recovers the arguments of
`add_can_transmission` and stops right behind the field. -/
theorem read_can_buffer_field_bytes (a c : List Nat) (field_id can_id can_data : Nat)
    (e r : Bool) (n : Nat) (callback : ReceiveCallback) (uninit : Nat)
    (hid : can_id < (if e then 2 ^ 29 else 2 ^ 11)) (hn : n ≤ 8) :
    read_can_buffer (fun i => (a ++ (field_bytes field_id can_id can_data e r n ++ c)).getD i 0)
        a.length callback uninit
      = (⟨callback, can_id, can_data % 256 ^ n + (uninit / 256 ^ n) * 256 ^ n, e, r, n⟩,
          a.length + field_size_of e n) := by
  have hb := header_bits (field_id % 16) e r (n != 0) (Nat.mod_lt _ (by norm_num))
  rw [← make_field_header_eq] at hb
  obtain ⟨hb1, hb2, hb3, -⟩ := hb
  cases e
  · obtain ⟨m1, m2, m3⟩ := mem_field a (le_bytes sizeof_CanStandardId (make_std_id can_id n))
      (le_bytes n can_data) c (make_field_header field_id false r n)
    simp only [length_le_bytes] at m2 m3
    simp only [Bool.false_eq_true, if_false] at hid
    have hw : make_std_id can_id n % 256 ^ sizeof_CanStandardId = make_std_id can_id n := by
      rw [make_std_id_eq]
      simp only [sizeof_CanStandardId]
      omega
    have hidv : getBitField (make_std_id can_id n) 0 11 = can_id := by
      rw [make_std_id_eq]
      simp only [getBitField]
      omega
    have hlen : (if (n != 0) = true then getBitField (make_std_id can_id n) 11 3 + 1 else 0)
        = n := by
      rw [make_std_id_eq]
      simp only [getBitField]
      by_cases h0 : n = 0
      · simp [h0]
      · simp only [bne_iff_ne, ne_eq, h0, not_false_eq_true, if_true]
        omega
    simp only [read_can_buffer, field_bytes, Bool.false_eq_true, if_false, sizeof_FieldHeader]
    simp only [field_bytes, Bool.false_eq_true, if_false] at m1 m2 m3
    simp only [m1, hb1, hb2, hb3, Bool.false_eq_true, if_false, m2, from_le_le_bytes, hw, hidv,
      hlen, m3, field_size_of]
    simp [Nat.add_assoc, sizeof_FieldHeader]
  · obtain ⟨m1, m2, m3⟩ := mem_field a (le_bytes sizeof_CanExtendedId (make_ext_id can_id n))
      (le_bytes n can_data) c (make_field_header field_id true r n)
    simp only [length_le_bytes] at m2 m3
    simp only [if_true] at hid
    have hw : make_ext_id can_id n % 256 ^ sizeof_CanExtendedId = make_ext_id can_id n := by
      rw [make_ext_id_eq]
      simp only [sizeof_CanExtendedId]
      omega
    have hidv : getBitField (make_ext_id can_id n) 0 29 = can_id := by
      rw [make_ext_id_eq]
      simp only [getBitField]
      omega
    have hlen : (if (n != 0) = true then getBitField (make_ext_id can_id n) 29 3 + 1 else 0)
        = n := by
      rw [make_ext_id_eq]
      simp only [getBitField]
      by_cases h0 : n = 0
      · simp [h0]
      · simp only [bne_iff_ne, ne_eq, h0, not_false_eq_true, if_true]
        omega
    simp only [read_can_buffer, field_bytes, if_true, sizeof_FieldHeader]
    simp only [field_bytes, if_true] at m1 m2 m3
    simp only [m1, hb1, hb2, hb3, if_true, m2, from_le_le_bytes, hw, hidv,
      hlen, m3, field_size_of]
    simp [Nat.add_assoc, sizeof_FieldHeader]

theorem add_can_transmission_true (s s' : TransmitBuffer) (field_id can_id can_data : Nat)
    (e r : Bool) (n : Nat)
    (h : add_can_transmission s field_id can_id can_data e r n = some (true, s')) :
    ∃ pre old rest, s.free_transfers_.items = pre ++ old :: rest ∧
      (∀ x ∈ pre, 64 < x.length + field_size_of e n) ∧
      old.length + field_size_of e n ≤ 64 ∧
      s' = { s with
              free_transfers_ :=
                { s.free_transfers_ with
                  items := write_field old field_id can_id can_data e r n :: rest }
              submitted := s.submitted ++ pre } := by
  obtain ⟨pre, post, hsplit, hpre, hres⟩ :=
    add_can_transmission_loop_char field_id can_id can_data e r n
      (s.free_transfers_.items.length + 1) s (Nat.lt_succ_self _)
  rcases hres with ⟨_, hr⟩ | ⟨t, rest, hp, hfit, hr⟩
  · rw [add_can_transmission, hr] at h
    simp at h
  · rw [add_can_transmission, hr] at h
    simp only [Option.some.injEq, Prod.mk.injEq, true_and] at h
    exact ⟨pre, t, rest, by rw [hsplit, hp], hpre, hfit, h.symm⟩

theorem add_can_transmission_false (s s' : TransmitBuffer) (field_id can_id can_data : Nat)
    (e r : Bool) (n : Nat)
    (h : add_can_transmission s field_id can_id can_data e r n = some (false, s')) :
    (∀ x ∈ s.free_transfers_.items, 64 < x.length + field_size_of e n) ∧
      s' = { s with
              free_transfers_ := { s.free_transfers_ with items := [] }
              submitted := s.submitted ++ s.free_transfers_.items } := by
  obtain ⟨pre, post, hsplit, hpre, hres⟩ :=
    add_can_transmission_loop_char field_id can_id can_data e r n
      (s.free_transfers_.items.length + 1) s (Nat.lt_succ_self _)
  rcases hres with ⟨hp, hr⟩ | ⟨t, rest, _, _, hr⟩
  · rw [add_can_transmission, hr] at h
    simp only [Option.some.injEq, Prod.mk.injEq, true_and] at h
    subst hp
    simp only [List.append_nil] at hsplit
    rw [hsplit]
    exact ⟨hpre, h.symm⟩
  · rw [add_can_transmission, hr] at h
    simp at h

theorem add_can_transmission_total (s : TransmitBuffer) (field_id can_id can_data : Nat)
    (e r : Bool) (n : Nat) :
    ∃ b s', add_can_transmission s field_id can_id can_data e r n = some (b, s') := by
  obtain ⟨pre, post, _, _, hres⟩ :=
    add_can_transmission_loop_char field_id can_id can_data e r n
      (s.free_transfers_.items.length + 1) s (Nat.lt_succ_self _)
  rcases hres with ⟨_, hr⟩ | ⟨t, rest, _, _, hr⟩
  · exact ⟨_, _, hr⟩
  · exact ⟨_, _, hr⟩

theorem write_field_buffer_split (t : Transfer) (field_id can_id can_data : Nat) (e r : Bool)
    (n : Nat) (h : t.length + field_size_of e n ≤ t.buffer.length) :
    (write_field t field_id can_id can_data e r n).buffer
      = t.buffer.take t.length ++ (field_bytes field_id can_id can_data e r n
          ++ t.buffer.drop (t.length + field_size_of e n)) := by
  rw [write_field_buffer t field_id can_id can_data e r n (by omega), write_bytes,
    length_field_bytes, List.append_assoc]

theorem le_bytes_eq_map_range (n w : Nat) :
    le_bytes n w = (List.range n).map fun i => w / 256 ^ i % 256 := by
  induction n generalizing w with
  | zero => rfl
  | succ n ih =>
    rw [le_bytes, ih, List.range_succ_eq_map, List.map_cons, List.map_map]
    simp only [pow_zero, Nat.div_one, List.cons.injEq, true_and]
    apply List.map_congr_left
    intro i _
    simp only [Function.comp, Nat.succ_eq_add_one]
    rw [Nat.div_div_eq_div_mul, pow_succ, Nat.mul_comm]

theorem header_or (x : Fin 16) (e r d : Bool) :
    x.val + 16 * boolToNat e + 32 * boolToNat r + 64 * boolToNat d
      = x.val ||| (boolToNat e <<< 4) ||| (boolToNat r <<< 5) ||| (boolToNat d <<< 6) := by
  revert x e r d
  decide

theorem id_word_or (i a b : Nat) (ha : a < 2 ^ i) : a + 2 ^ i * b = a ||| (b <<< i) := by
  rw [Nat.add_comm, Nat.mul_add_lt_is_or ha, Nat.lor_comm, Nat.shiftLeft_eq, Nat.mul_comm]

theorem field_bytes_eq_spec (t id data : Nat) (e r : Bool) (n : Nat) :
    field_bytes t id data e r n = spec_wire_field t id data e r n := by
  have hh := header_or ⟨t % 16, Nat.mod_lt _ (by norm_num)⟩ e r (n != 0)
  simp only at hh
  have hl : (((n : Int) - 1) % 8).toNat = (n + 7) % 8 := by
    have := truncateInt_pred n
    simpa [truncateInt] using this
  cases e
  · have hw := id_word_or 11 (id % 2 ^ 11) ((n + 7) % 8) (Nat.mod_lt _ (by norm_num))
    simp only [field_bytes, spec_wire_field, make_field_header_eq, hh, hl, make_std_id_eq,
      Bool.false_eq_true, if_false, le_bytes_eq_map_range n data, sizeof_CanStandardId,
      le_bytes]
    norm_num at hw ⊢
    rw [hw]
    exact ⟨rfl, rfl⟩
  · have hw := id_word_or 29 (id % 2 ^ 29) ((n + 7) % 8) (Nat.mod_lt _ (by norm_num))
    simp only [field_bytes, spec_wire_field, make_field_header_eq, hh, hl, make_ext_id_eq,
      if_true, le_bytes_eq_map_range n data, sizeof_CanExtendedId, le_bytes]
    norm_num at hw ⊢
    rw [hw]
    simp [Nat.div_div_eq_div_mul]

/-! ## The receive field walk -/

theorem read_can_buffer_advance (mem : Nat → Nat) (it : Nat) (cb : ReceiveCallback)
    (u : Nat) : it + 3 ≤ (read_can_buffer mem it cb u).2 := by
  simp only [read_can_buffer, sizeof_FieldHeader, sizeof_CanExtendedId, sizeof_CanStandardId]
  split <;> simp only <;> omega

theorem field_walk_succ (mem : Nat → Nat) (sentinel : Nat) (uninit : Nat → Nat)
    (f it : Nat) :
    field_walk mem sentinel uninit (f + 1) it =
      if it < sentinel then
        if getBitField (mem it) 0 4 = StatusId.CAN1 then
          (field_walk mem sentinel uninit f
              (read_can_buffer mem it .can1_receive_callback (uninit it)).2).map
            fun w => ((read_can_buffer mem it .can1_receive_callback (uninit it)).1 :: w.1, w.2)
        else if getBitField (mem it) 0 4 = StatusId.CAN2 then
          (field_walk mem sentinel uninit f
              (read_can_buffer mem it .can2_receive_callback (uninit it)).2).map
            fun w => ((read_can_buffer mem it .can2_receive_callback (uninit it)).1 :: w.1, w.2)
        else some ([], it)
      else some ([], it) := rfl

theorem field_walk_mono (mem : Nat → Nat) (sentinel : Nat) (uninit : Nat → Nat) :
    ∀ (f it : Nat) (r : List CallbackCall × Nat),
      field_walk mem sentinel uninit f it = some r →
      ∀ k, field_walk mem sentinel uninit (f + k) it = some r := by
  intro f
  induction f with
  | zero => intro it r h; simp [field_walk] at h
  | succ f ih =>
    intro it r h k
    rw [Nat.add_right_comm]
    rw [field_walk_succ] at h ⊢
    by_cases hit : it < sentinel
    · simp only [if_pos hit] at h ⊢
      by_cases h1 : getBitField (mem it) 0 4 = StatusId.CAN1
      · simp only [if_pos h1, Option.map_eq_some'] at h ⊢
        obtain ⟨w, hw, hr⟩ := h
        exact ⟨w, ih _ _ hw k, hr⟩
      · simp only [if_neg h1] at h ⊢
        by_cases h2 : getBitField (mem it) 0 4 = StatusId.CAN2
        · simp only [if_pos h2, Option.map_eq_some'] at h ⊢
          obtain ⟨w, hw, hr⟩ := h
          exact ⟨w, ih _ _ hw k, hr⟩
        · simp only [if_neg h2] at h ⊢
          exact h
    · simp only [if_neg hit] at h ⊢
      exact h

theorem field_walk_fuel_irrelevant (mem : Nat → Nat) (sentinel : Nat) (uninit : Nat → Nat)
    (f1 f2 it : Nat) (r1 r2 : List CallbackCall × Nat)
    (h1 : field_walk mem sentinel uninit f1 it = some r1)
    (h2 : field_walk mem sentinel uninit f2 it = some r2) : r1 = r2 := by
  have a := field_walk_mono mem sentinel uninit f1 it r1 h1 f2
  have b := field_walk_mono mem sentinel uninit f2 it r2 h2 f1
  rw [Nat.add_comm] at b
  rw [a] at b
  exact Option.some.inj b

theorem field_walk_total (mem : Nat → Nat) (sentinel : Nat) (uninit : Nat → Nat) :
    ∀ (f it : Nat), 1 ≤ f → sentinel < it + f →
      ∃ r, field_walk mem sentinel uninit f it = some r := by
  intro f
  induction f with
  | zero => intro it h; omega
  | succ f ih =>
    intro it _ hlt
    rw [field_walk_succ]
    by_cases hit : it < sentinel
    · simp only [if_pos hit]
      by_cases h1 : getBitField (mem it) 0 4 = StatusId.CAN1
      · have hadv := read_can_buffer_advance mem it .can1_receive_callback (uninit it)
        obtain ⟨w, hw⟩ := ih (read_can_buffer mem it .can1_receive_callback (uninit it)).2
          (by omega) (by omega)
        rw [if_pos h1, hw]
        exact ⟨_, rfl⟩
      · by_cases h2 : getBitField (mem it) 0 4 = StatusId.CAN2
        · have hadv := read_can_buffer_advance mem it .can2_receive_callback (uninit it)
          obtain ⟨w, hw⟩ := ih (read_can_buffer mem it .can2_receive_callback (uninit it)).2
            (by omega) (by omega)
          rw [if_neg h1, if_pos h2, hw]
          exact ⟨_, rfl⟩
        · rw [if_neg h1, if_neg h2]
          exact ⟨_, rfl⟩
    · rw [if_neg hit]
      exact ⟨_, rfl⟩

theorem field_walk_split (mem : Nat → Nat) (q sentinel : Nat) (uninit : Nat → Nat)
    (hq : q ≤ sentinel) :
    ∀ (f1 it : Nat) (cs0 : List CallbackCall),
      field_walk mem q uninit f1 it = some (cs0, q) →
      ∀ (f2 : Nat) (cs1 : List CallbackCall) (p : Nat),
        field_walk mem sentinel uninit f2 q = some (cs1, p) →
        field_walk mem sentinel uninit (f1 + f2) it = some (cs0 ++ cs1, p) := by
  intro f1
  induction f1 with
  | zero => intro it cs0 h; simp [field_walk] at h
  | succ f1 ih =>
    intro it cs0 h f2 cs1 p h2
    rw [field_walk_succ] at h
    by_cases hit : it < q
    · have hit' : it < sentinel := by omega
      rw [Nat.add_right_comm, field_walk_succ, if_pos hit']
      simp only [if_pos hit] at h
      by_cases htag : getBitField (mem it) 0 4 = StatusId.CAN1
      · simp only [if_pos htag, Option.map_eq_some'] at h
        obtain ⟨w, hw, hr⟩ := h
        simp only [Prod.mk.injEq] at hr
        obtain ⟨hr1, hr2⟩ := hr
        obtain ⟨w1, w2⟩ := w
        simp only at hr1 hr2
        subst hr2
        have := ih _ w1 hw f2 cs1 p h2
        simp only [if_pos htag, this, Option.map_some', ← hr1, List.cons_append]
      · simp only [if_neg htag] at h
        by_cases htag2 : getBitField (mem it) 0 4 = StatusId.CAN2
        · simp only [if_pos htag2, Option.map_eq_some'] at h
          obtain ⟨w, hw, hr⟩ := h
          simp only [Prod.mk.injEq] at hr
          obtain ⟨hr1, hr2⟩ := hr
          obtain ⟨w1, w2⟩ := w
          simp only at hr1 hr2
          subst hr2
          have := ih _ w1 hw f2 cs1 p h2
          simp only [if_neg htag, if_pos htag2, this, Option.map_some', ← hr1,
            List.cons_append]
        · simp only [if_neg htag2, Option.some.injEq, Prod.mk.injEq] at h
          omega
    · simp only [if_neg hit, Option.some.injEq, Prod.mk.injEq] at h
      obtain ⟨hc, hi⟩ := h
      subst hi
      subst hc
      have := field_walk_mono mem sentinel uninit f2 it (cs1, p) h2 (f1 + 1)
      rw [Nat.add_comm] at this
      simpa using this

theorem usb_receive_walk (cnt : Int) (n : Nat) (mem uninit : Nat → Nat) (h0 : mem 0 = 0xAE)
    (hn : 2 ≤ n) (f : Nat) (cs : List CallbackCall) (p : Nat)
    (hw : field_walk mem n uninit f 1 = some (cs, p)) :
    usb_receive_complete_callback cnt .LIBUSB_TRANSFER_COMPLETED n mem uninit
      = some (if p ≠ n then
            if p < n then ⟨cs, some (.unexpected_field_id p (mem p)), 1, false, cnt⟩
            else ⟨cs, some (.field_reading_out_of_bounds (p - n)), 1, false, cnt⟩
          else ⟨cs, none, 1, false, cnt⟩) := by
  obtain ⟨r, hr⟩ := field_walk_total mem n uninit (n + 1) 1 (by omega) (by omega)
  have hrr := field_walk_fuel_irrelevant mem n uninit _ _ 1 _ _ hr hw
  subst hrr
  have hn0 : ¬ (0 = n) := by omega
  have hn1 : ¬ (1 = n) := by omega
  simp only [usb_receive_complete_callback, reduceCtorEq, if_false, ne_eq,
    not_true_eq_false, h0, Nat.zero_add, hr, Option.map_some', hn0, hn1]

/-! ## The field codec -/

/-- C1: CAN codec round trip. For a valid frame (identifier below 2^11 for a standard frame,
below 2^29 for an extended one, either remote flag, data length 0..8) that
`add_can_transmission` has written into a transfer of the free set, `read_can_buffer`
started at the first byte of the field returns the same identifier, extended flag, remote
flag and data length, data whose `can_data_length` low-order bytes are those of the frame,
and a cursor that stands right behind the last byte written. -/
theorem C1_can_codec_round_trip (s s' : TransmitBuffer) (field_id can_id can_data : Nat)
    (is_extended_can_id is_remote_transmission : Bool) (can_data_length : Nat)
    (callback : ReceiveCallback) (uninit : Nat)
    (hid : can_id < (if is_extended_can_id then 2 ^ 29 else 2 ^ 11))
    (hlen : can_data_length ≤ 8)
    (hbuf : ∀ x ∈ s.free_transfers_.items, x.buffer.length = 64)
    (hadd : add_can_transmission s field_id can_id can_data is_extended_can_id
      is_remote_transmission can_data_length = some (true, s')) :
    ∃ old new rest, old ∈ s.free_transfers_.items ∧ s'.free_transfers_.items = new :: rest ∧
      new.length = old.length + field_size_of is_extended_can_id can_data_length ∧
      (read_can_buffer (fun i => new.buffer.getD i 0) old.length callback uninit).2
        = new.length ∧
      (read_can_buffer (fun i => new.buffer.getD i 0) old.length callback uninit).1.callback
        = callback ∧
      (read_can_buffer (fun i => new.buffer.getD i 0) old.length callback uninit).1.can_id
        = can_id ∧
      (read_can_buffer (fun i => new.buffer.getD i 0) old.length callback
        uninit).1.is_extended_can_id = is_extended_can_id ∧
      (read_can_buffer (fun i => new.buffer.getD i 0) old.length callback
        uninit).1.is_remote_transmission = is_remote_transmission ∧
      (read_can_buffer (fun i => new.buffer.getD i 0) old.length callback
        uninit).1.can_data_length = can_data_length ∧
      (read_can_buffer (fun i => new.buffer.getD i 0) old.length callback uninit).1.can_data
          % 256 ^ can_data_length = can_data % 256 ^ can_data_length := by
  obtain ⟨pre, old, rest, hsplit, -, hfit, hs'⟩ :=
    add_can_transmission_true s s' field_id can_id can_data is_extended_can_id
      is_remote_transmission can_data_length hadd
  have hmem : old ∈ s.free_transfers_.items := by rw [hsplit]; simp
  have h64 := hbuf old hmem
  have hb := write_field_buffer_split old field_id can_id can_data is_extended_can_id
    is_remote_transmission can_data_length (by omega)
  have ha : (old.buffer.take old.length).length = old.length := by
    rw [List.length_take]; omega
  have hr := read_can_buffer_field_bytes (old.buffer.take old.length)
    (old.buffer.drop (old.length + field_size_of is_extended_can_id can_data_length))
    field_id can_id can_data is_extended_can_id is_remote_transmission can_data_length
    callback uninit hid hlen
  rw [ha, ← hb] at hr
  refine ⟨old, write_field old field_id can_id can_data is_extended_can_id
    is_remote_transmission can_data_length, rest, hmem, by rw [hs'], rfl, ?_⟩
  rw [hr]
  refine ⟨rfl, rfl, rfl, rfl, rfl, rfl, ?_⟩
  simp only
  rw [Nat.add_mul_mod_self_right, Nat.mod_mod]

/-- Instance of C1: the standard frame `0x201` with eight data bytes in a pool of one. -/
theorem C1_can_codec_round_trip_witness :
    ∃ old new rest, old ∈ pool_of_one.free_transfers_.items ∧
      pool_of_one_after.free_transfers_.items = new :: rest ∧
      new.length = old.length + field_size_of false 8 ∧
      (read_can_buffer (fun i => new.buffer.getD i 0) old.length .can1_receive_callback 0).2
        = new.length ∧
      (read_can_buffer (fun i => new.buffer.getD i 0) old.length .can1_receive_callback
        0).1.callback = .can1_receive_callback ∧
      (read_can_buffer (fun i => new.buffer.getD i 0) old.length .can1_receive_callback
        0).1.can_id = 0x201 ∧
      (read_can_buffer (fun i => new.buffer.getD i 0) old.length .can1_receive_callback
        0).1.is_extended_can_id = false ∧
      (read_can_buffer (fun i => new.buffer.getD i 0) old.length .can1_receive_callback
        0).1.is_remote_transmission = false ∧
      (read_can_buffer (fun i => new.buffer.getD i 0) old.length .can1_receive_callback
        0).1.can_data_length = 8 ∧
      (read_can_buffer (fun i => new.buffer.getD i 0) old.length .can1_receive_callback
        0).1.can_data % 256 ^ 8 = 0x1122334455667788 % 256 ^ 8 :=
  C1_can_codec_round_trip pool_of_one pool_of_one_after CommandId.CAN1 0x201 0x1122334455667788
    false false 8 .can1_receive_callback 0 (by decide) (by decide) (by decide) (by decide)

/-- C2: wire format of one encoded field. When `add_can_transmission` succeeds for bus tag
`t`, identifier `id`, flags and data length `n` in 0..8, the transfer at the head of the free
set is one of the free transfers, its logical length has grown by `1 + (2 or 4) + n`, and its
array differs from before only at the old logical length, where it now holds the flag byte,
the little-endian identifier word and the `n` low-order data bytes that `spec_wire_field`
describes. -/
theorem C2_wire_format (s s' : TransmitBuffer) (t id data : Nat) (extended remote : Bool)
    (n : Nat) (_hn : n ≤ 8)
    (hbuf : ∀ x ∈ s.free_transfers_.items, x.buffer.length = 64)
    (hadd : add_can_transmission s t id data extended remote n = some (true, s')) :
    ∃ pre old new rest, s.free_transfers_.items = pre ++ old :: rest ∧
      s'.free_transfers_.items = new :: rest ∧
      new.handle = old.handle ∧
      new.length = old.length + (1 + (if extended then 4 else 2) + n) ∧
      (spec_wire_field t id data extended remote n).length
        = 1 + (if extended then 4 else 2) + n ∧
      new.buffer = old.buffer.take old.length ++ spec_wire_field t id data extended remote n
        ++ old.buffer.drop new.length := by
  obtain ⟨pre, old, rest, hsplit, -, hfit, hs'⟩ :=
    add_can_transmission_true s s' t id data extended remote n hadd
  have hmem : old ∈ s.free_transfers_.items := by rw [hsplit]; simp
  have h64 := hbuf old hmem
  have hb := write_field_buffer_split old t id data extended remote n (by omega)
  have hfs : field_size_of extended n = 1 + (if extended then 4 else 2) + n := by
    cases extended <;> rfl
  refine ⟨pre, old, write_field old t id data extended remote n, rest, hsplit, by rw [hs'],
    rfl, ?_, ?_, ?_⟩
  · show old.length + field_size_of extended n = _
    rw [hfs]
  · rw [← field_bytes_eq_spec, length_field_bytes, hfs]
  · rw [hb, ← field_bytes_eq_spec, List.append_assoc]
    rfl

/-- Instance of C2: the standard frame `0x201` with eight data bytes in a pool of one. -/
theorem C2_wire_format_witness :
    ∃ pre old new rest, pool_of_one.free_transfers_.items = pre ++ old :: rest ∧
      pool_of_one_after.free_transfers_.items = new :: rest ∧
      new.handle = old.handle ∧
      new.length = old.length + (1 + (if false then 4 else 2) + 8) ∧
      (spec_wire_field CommandId.CAN1 0x201 0x1122334455667788 false false 8).length
        = 1 + (if false then 4 else 2) + 8 ∧
      new.buffer = old.buffer.take old.length
        ++ spec_wire_field CommandId.CAN1 0x201 0x1122334455667788 false false 8
        ++ old.buffer.drop new.length :=
  C2_wire_format pool_of_one pool_of_one_after CommandId.CAN1 0x201 0x1122334455667788 false
    false 8 (by decide) (by decide) (by decide)

/-! ## The transmit pool -/

set_option maxRecDepth 100000

theorem fields_size_take (frames : List CanFrame) (k : Nat) :
    fields_size (frames.take k) ≤ fields_size frames := by
  induction frames generalizing k with
  | nil => simp
  | cons f fs ih =>
    cases k with
    | zero => simp [fields_size]
    | succ k =>
      have := ih k
      simp only [List.take_succ_cons, fields_size]
      omega

theorem fields_size_pos (frames : List CanFrame) (h : frames ≠ []) :
    3 ≤ fields_size frames := by
  cases frames with
  | nil => exact absurd rfl h
  | cons f fs =>
    simp only [fields_size, field_size_of, sizeof_FieldHeader, sizeof_CanExtendedId,
      sizeof_CanStandardId]
    split <;> omega

theorem length_fields_bytes (frames : List CanFrame) :
    (fields_bytes frames).length = fields_size frames := by
  induction frames with
  | nil => rfl
  | cons f fs ih =>
    simp only [fields_bytes, fields_size, List.length_append, length_field_bytes, ih]


theorem push_back_multi_items {α : Type} (cap : Nat) (gen : Nat → α) :
    ∀ k, k ≤ cap →
      RingBuffer.push_back_multi ⟨cap, []⟩ gen k = ⟨cap, (List.range k).map gen⟩ := by
  intro k
  induction k with
  | zero => intro _; rfl
  | succ k ih =>
    intro hk
    rw [RingBuffer.push_back_multi, ih (by omega)]
    simp only [RingBuffer.push_back, List.length_map, List.length_range]
    rw [if_pos (by omega), List.range_succ, List.map_append]
    rfl

theorem new_items (cnt : Int) (N : Nat) (uninit : Nat → Nat → Nat) (hN : 1 ≤ N) :
    ∃ rest, (TransmitBuffer.new cnt N uninit).free_transfers_.items
        = ⟨0, 0x81 :: ((List.range 63).map fun j => uninit 0 (j + 1)), 1⟩ :: rest ∧
      (TransmitBuffer.new cnt N uninit).submitted = [] := by
  obtain ⟨M, rfl⟩ : ∃ M, N = M + 1 := ⟨N - 1, by omega⟩
  refine ⟨(List.range M).map fun i =>
    ⟨i + 1, ((List.range 64).map (uninit (i + 1))).set 0 0x81, 1⟩, ?_, rfl⟩
  simp only [TransmitBuffer.new, push_back_multi_items _ _ (M + 1) (le_refl _)]
  rw [List.range_succ_eq_map M, List.map_cons, List.map_map]
  refine congrArg₂ _ ?_ rfl
  rw [List.range_succ_eq_map 63, List.map_cons, List.set_cons_zero, List.map_map]
  rfl

theorem add_frame_fits (s : TransmitBuffer) (t : Transfer) (rest : List Transfer)
    (f : CanFrame) (hs : s.free_transfers_.items = t :: rest)
    (hfit : t.length + field_size_of f.is_extended_can_id f.can_data_length ≤ 64) :
    add_frame s f
      = some (true,
          { s with
            free_transfers_ :=
              { s.free_transfers_ with
                items :=
                  write_field t f.field_id f.can_id f.can_data f.is_extended_can_id
                      f.is_remote_transmission f.can_data_length :: rest } }) := by
  have hnot : ¬ 64 < t.length + field_size_of f.is_extended_can_id f.can_data_length := by
    omega
  simp [add_frame, add_can_transmission, add_can_transmission_loop, RingBuffer.front, hs, hnot]

theorem add_frames_fit : ∀ (frames : List CanFrame) (s : TransmitBuffer) (t : Transfer)
    (rest : List Transfer), s.free_transfers_.items = t :: rest → t.buffer.length = 64 →
    t.length + fields_size frames ≤ 64 →
    ∃ t', add_frames s frames
        = some (List.replicate frames.length true,
            { s with free_transfers_ := { s.free_transfers_ with items := t' :: rest } }) ∧
      t'.handle = t.handle ∧ t'.length = t.length + fields_size frames ∧
      t'.buffer = t.buffer.take t.length
        ++ (fields_bytes frames ++ t.buffer.drop (t.length + fields_size frames)) := by
  intro frames
  induction frames with
  | nil =>
    intro s t rest hs _ _
    refine ⟨t, ?_, rfl, rfl, ?_⟩
    · obtain ⟨⟨cap, items⟩, sub, cnt⟩ := s
      simp only at hs
      subst hs
      rfl
    · simp [fields_bytes, fields_size]
  | cons f fs ih =>
    intro s t rest hs h64 hfit
    simp only [fields_size] at hfit
    have hstep := add_frame_fits s t rest f hs (by omega)
    have hb := write_field_buffer_split t f.field_id f.can_id f.can_data f.is_extended_can_id
      f.is_remote_transmission f.can_data_length (by omega)
    have hl : (write_field t f.field_id f.can_id f.can_data f.is_extended_can_id
        f.is_remote_transmission f.can_data_length).length
          = t.length + field_size_of f.is_extended_can_id f.can_data_length := rfl
    have hlb : (write_field t f.field_id f.can_id f.can_data f.is_extended_can_id
        f.is_remote_transmission f.can_data_length).buffer.length = 64 := by
      rw [hb]
      simp only [List.length_append, List.length_take, List.length_drop, length_field_bytes]
      omega
    obtain ⟨t', hrun, hh, hlen, hbuf⟩ :=
      ih { s with
            free_transfers_ :=
              { s.free_transfers_ with
                items :=
                  write_field t f.field_id f.can_id f.can_data f.is_extended_can_id
                      f.is_remote_transmission f.can_data_length :: rest } }
        _ rest rfl hlb (by rw [hl]; omega)
    refine ⟨t', ?_, by rw [hh]; rfl, by rw [hlen, hl, fields_size]; omega, ?_⟩
    · simp only [add_frames, hstep, hrun, Option.map_some', List.length_cons,
        List.replicate_succ]
    · rw [hbuf, hl, hb, fields_bytes, fields_size]
      have ha : (t.buffer.take t.length).length = t.length := by
        rw [List.length_take]; omega
      have e1 : t.length + field_size_of f.is_extended_can_id f.can_data_length
          = (t.buffer.take t.length
              ++ field_bytes f.field_id f.can_id f.can_data f.is_extended_can_id
                  f.is_remote_transmission f.can_data_length).length := by
        rw [List.length_append, ha, length_field_bytes]
      rw [← List.append_assoc (t.buffer.take t.length), e1, List.take_left]
      rw [← e1]
      have e2 : t.length + field_size_of f.is_extended_can_id f.can_data_length
            + fields_size fs
          = (t.buffer.take t.length
              ++ field_bytes f.field_id f.can_id f.can_data f.is_extended_can_id
                  f.is_remote_transmission f.can_data_length).length + fields_size fs := by
        rw [← e1]
      rw [e2, List.drop_append, List.drop_drop]
      simp only [List.append_assoc]
      rw [Nat.add_assoc]

/-- C4, as stated, fails: after five standard frames of eight bytes the only transfer of a
fresh pool of one has logical length 56; the sixth call finds no room, submits that transfer,
finds the free set empty and returns false, leaving the free set empty and one transfer
submitted. -/
theorem C4_counterexample :
    add_frames (TransmitBuffer.new 0 1 (fun _ _ => 0)) (List.replicate 5 frame_std8)
        = some ([true, true, true, true, true], pool_of_one_full) ∧
      add_can_transmission pool_of_one_full CommandId.CAN1 0x201 0x1122334455667788 false
          false 8
        = some (false, ⟨⟨1, []⟩, pool_of_one_full.free_transfers_.items, 1⟩) ∧
      pool_of_one_full.free_transfers_.items ≠ [] ∧ pool_of_one_full.submitted = [] := by
  decide

/-- C4, amended: when `add_can_transmission` returns false, every transfer that was in the
free set had too little room for the field and has been submitted, in free-set order and
with contents and logical length as they were; the free set is left empty, its capacity and
the transfer counter are unchanged. In particular the pool is unchanged when the free set
was empty at the call. -/
theorem C4_failure_submits_the_full_transfers (s s' : TransmitBuffer)
    (field_id can_id can_data : Nat) (is_extended_can_id is_remote_transmission : Bool)
    (can_data_length : Nat)
    (hadd : add_can_transmission s field_id can_id can_data is_extended_can_id
      is_remote_transmission can_data_length = some (false, s')) :
    (∀ x ∈ s.free_transfers_.items,
        64 < x.length + field_size_of is_extended_can_id can_data_length) ∧
      s'.submitted = s.submitted ++ s.free_transfers_.items ∧
      s'.free_transfers_.items = [] ∧
      s'.free_transfers_.capacity = s.free_transfers_.capacity ∧
      s'.active_transfer_count_ = s.active_transfer_count_ ∧
      (s.free_transfers_.items = [] → s' = s) := by
  obtain ⟨hfull, hs'⟩ := add_can_transmission_false s s' field_id can_id can_data
    is_extended_can_id is_remote_transmission can_data_length hadd
  refine ⟨hfull, by rw [hs'], by rw [hs'], by rw [hs'], by rw [hs'], ?_⟩
  intro hempty
  rw [hs']
  obtain ⟨⟨cap, items⟩, sub, cnt⟩ := s
  simp only at hempty
  subst hempty
  simp

/-- Instance of C4 amended: the sixth frame on the full pool of one. -/
theorem C4_failure_submits_the_full_transfers_witness :
    (∀ x ∈ pool_of_one_full.free_transfers_.items, 64 < x.length + field_size_of false 8) ∧
      (⟨⟨1, []⟩, pool_of_one_full.free_transfers_.items, 1⟩ : TransmitBuffer).submitted
        = pool_of_one_full.submitted ++ pool_of_one_full.free_transfers_.items ∧
      (⟨⟨1, []⟩, pool_of_one_full.free_transfers_.items, 1⟩ :
        TransmitBuffer).free_transfers_.items = [] ∧
      (⟨⟨1, []⟩, pool_of_one_full.free_transfers_.items, 1⟩ :
        TransmitBuffer).free_transfers_.capacity = pool_of_one_full.free_transfers_.capacity ∧
      (⟨⟨1, []⟩, pool_of_one_full.free_transfers_.items, 1⟩ :
        TransmitBuffer).active_transfer_count_ = pool_of_one_full.active_transfer_count_ ∧
      (pool_of_one_full.free_transfers_.items = [] →
        (⟨⟨1, []⟩, pool_of_one_full.free_transfers_.items, 1⟩ : TransmitBuffer)
          = pool_of_one_full) :=
  C4_failure_submits_the_full_transfers pool_of_one_full
    ⟨⟨1, []⟩, pool_of_one_full.free_transfers_.items, 1⟩ CommandId.CAN1 0x201
    0x1122334455667788 false false 8 (by decide)

/-- C7, as stated, fails: on a fresh pool of two transfers, four extended frames of eight
bytes and one of seven bytes have fields of 64 bytes in total; all five calls return true,
but the fifth submits the first transfer, and the flush submits a second one. -/
theorem C7_counterexample :
    fields_size [frame_ext8, frame_ext8, frame_ext8, frame_ext8, frame_ext7] = 64 ∧
      (add_frames (TransmitBuffer.new 0 2 (fun _ _ => 0))
          [frame_ext8, frame_ext8, frame_ext8, frame_ext8, frame_ext7]).map
        (fun r => (r.1, r.2.submitted.map (fun t => t.length),
          (trigger_transmission r.2).2.submitted.map (fun t => t.length)))
        = some ([true, true, true, true, true], [53], [53, 13]) := by
  decide

/-- C7, amended: for every non-empty sequence of frames with data lengths 0..8 whose encoded
fields total at most 63 bytes (64 less the one-byte prefix), on a freshly constructed pool of
at least one transfer, every call of `add_can_transmission` returns true, no transfer has
been submitted after any prefix of the calls, and one `trigger_transmission` then submits
exactly one transfer: the first of the pool, of logical length 1 plus the total, holding the
marker byte `0x81` followed by the fields of all the frames in call order. -/
theorem C7_coalescing_into_one_packet (cnt : Int) (N : Nat) (uninit : Nat → Nat → Nat)
    (frames : List CanFrame) (hN : 1 ≤ N) (hne : frames ≠ [])
    (_hlen : ∀ f ∈ frames, f.can_data_length ≤ 8)
    (htotal : fields_size frames ≤ 63) :
    (∀ k, ∃ sk, add_frames (TransmitBuffer.new cnt N uninit) (frames.take k)
        = some (List.replicate (frames.take k).length true, sk) ∧ sk.submitted = []) ∧
    ∃ s t, add_frames (TransmitBuffer.new cnt N uninit) frames
        = some (List.replicate frames.length true, s) ∧
      s.submitted = [] ∧
      (trigger_transmission s).1 = true ∧
      (trigger_transmission s).2.submitted = [t] ∧
      t.handle = 0 ∧
      t.length = 1 + fields_size frames ∧
      t.buffer.take t.length = 0x81 :: fields_bytes frames := by
  obtain ⟨rest, hitems, hsub⟩ := new_items cnt N uninit hN
  have h64 : (⟨0, 0x81 :: ((List.range 63).map fun j => uninit 0 (j + 1)), 1⟩ :
      Transfer).buffer.length = 64 := by simp
  have hfit : ∀ fr : List CanFrame, fields_size fr ≤ 63 →
      (⟨0, 0x81 :: ((List.range 63).map fun j => uninit 0 (j + 1)), 1⟩ : Transfer).length
        + fields_size fr ≤ 64 := by
    intro fr h
    simp only
    omega
  refine ⟨?_, ?_⟩
  · intro k
    have hk := fields_size_take frames k
    obtain ⟨t', hrun, -, -, -⟩ := add_frames_fit (frames.take k) _ _ rest hitems h64
      (hfit _ (by omega))
    exact ⟨_, hrun, hsub⟩
  · obtain ⟨t', hrun, hh, hl, hb⟩ := add_frames_fit frames _ _ rest hitems h64
      (hfit _ htotal)
    simp only at hh hl hb
    have hpos := fields_size_pos frames hne
    refine ⟨_, t', hrun, hsub, ?_, ?_, hh, hl, ?_⟩
    · have hlt : ¬ t'.length ≤ 1 := by omega
      simp [trigger_transmission, RingBuffer.front, hlt, trigger_transmission_nocheck,
        RingBuffer.pop_front]
    · have hlt : ¬ t'.length ≤ 1 := by omega
      simp [trigger_transmission, RingBuffer.front, hlt, trigger_transmission_nocheck,
        RingBuffer.pop_front, hsub]
    · rw [hb, hl]
      simp only [List.take_succ_cons, List.take_zero, List.singleton_append,
        Nat.add_comm 1 (fields_size frames), List.cons.injEq, true_and]
      rw [← length_fields_bytes frames, List.take_left]

/-- Instance of C7 amended: a standard and an extended frame on a fresh pool of one. -/
theorem C7_coalescing_into_one_packet_witness :
    (∀ k, ∃ sk, add_frames (TransmitBuffer.new 0 1 (fun _ _ => 0))
          ([frame_std8, frame_ext8].take k)
        = some (List.replicate ([frame_std8, frame_ext8].take k).length true, sk) ∧
        sk.submitted = []) ∧
    ∃ s t, add_frames (TransmitBuffer.new 0 1 (fun _ _ => 0)) [frame_std8, frame_ext8]
        = some (List.replicate [frame_std8, frame_ext8].length true, s) ∧
      s.submitted = [] ∧
      (trigger_transmission s).1 = true ∧
      (trigger_transmission s).2.submitted = [t] ∧
      t.handle = 0 ∧
      t.length = 1 + fields_size [frame_std8, frame_ext8] ∧
      t.buffer.take t.length = 0x81 :: fields_bytes [frame_std8, frame_ext8] :=
  C7_coalescing_into_one_packet 0 1 (fun _ _ => 0) [frame_std8, frame_ext8] (by decide)
    (by decide) (by decide) (by decide)

/-! ## Receive completions -/

/-- C3, as stated, fails: in the packet `AE 42 34 12` the field at offset 1 (CAN1, standard
identifier, has-data, declared length 3) ends at offset 7, past the 4 received bytes, and
`can1_receive_callback` is invoked for it all the same. -/
theorem C3_counterexample :
    usb_receive_complete_callback 1 .LIBUSB_TRANSFER_COMPLETED 4
        (fun i => [0xAE, 0x42, 0x34, 0x12].getD i 0) (fun _ => 0)
      = some ⟨[⟨.can1_receive_callback, 0x234, 0, false, false, 3⟩],
          some (.field_reading_out_of_bounds 3), 1, false, 1⟩ := by
  decide

/-- C3, amended: `read_can_buffer` compares nothing with the number of received bytes. When
the fields of a completed packet tile the bytes from offset 1 up to a cursor `q` inside the
received bytes, and a CAN1 or CAN2 field starts at `q` whose identifier word or declared
data extends past the received bytes, the callbacks of the earlier fields and then the
callback of that field are invoked, and only afterwards the out-of-bounds error is logged
with the excess of the cursor; the transfer is resubmitted once. -/
theorem C3_overlong_field_is_dispatched (cnt : Int) (actual_length q : Nat)
    (mem uninit : Nat → Nat) (f : Nat) (cs0 : List CallbackCall) (cb : ReceiveCallback)
    (h0 : mem 0 = 0xAE) (h1 : 1 ≤ q) (hq : q < actual_length)
    (hreach : field_walk mem q uninit f 1 = some (cs0, q))
    (htag : (getBitField (mem q) 0 4 = StatusId.CAN1 ∧ cb = .can1_receive_callback) ∨
      (getBitField (mem q) 0 4 = StatusId.CAN2 ∧ cb = .can2_receive_callback))
    (hover : actual_length < (read_can_buffer mem q cb (uninit q)).2) :
    usb_receive_complete_callback cnt .LIBUSB_TRANSFER_COMPLETED actual_length mem uninit
      = some ⟨cs0 ++ [(read_can_buffer mem q cb (uninit q)).1],
          some (.field_reading_out_of_bounds
            ((read_can_buffer mem q cb (uninit q)).2 - actual_length)), 1, false, cnt⟩ := by
  have hwalk : field_walk mem actual_length uninit 2 q
      = some ([(read_can_buffer mem q cb (uninit q)).1],
          (read_can_buffer mem q cb (uninit q)).2) := by
    have hstop : ∀ c, actual_length < (read_can_buffer mem q c (uninit q)).2 →
        field_walk mem actual_length uninit 1 (read_can_buffer mem q c (uninit q)).2
          = some ([], (read_can_buffer mem q c (uninit q)).2) := by
      intro c hc
      rw [field_walk_succ, if_neg (by omega)]
    rcases htag with ⟨ht, rfl⟩ | ⟨ht, rfl⟩
    · rw [field_walk_succ, if_pos hq, if_pos ht, hstop _ hover]
      rfl
    · have hne : ¬ getBitField (mem q) 0 4 = StatusId.CAN1 := by
        rw [ht]; decide
      rw [field_walk_succ, if_pos hq, if_neg hne, if_pos ht, hstop _ hover]
      rfl
  have hall := field_walk_split mem q actual_length uninit (by omega) f 1 cs0 hreach 2 _ _ hwalk
  rw [usb_receive_walk cnt actual_length mem uninit h0 (by omega) _ _ _ hall]
  rw [if_pos (by omega), if_neg (by omega)]

/-- Instance of C3 amended: the packet `AE 22 34 12 43 01 02`, whose second field (CAN2,
declared length 1) ends one byte past the 7 received bytes. -/
theorem C3_overlong_field_is_dispatched_witness :
    usb_receive_complete_callback 1 .LIBUSB_TRANSFER_COMPLETED 7
        (fun i => [0xAE, 0x22, 0x34, 0x12, 0x43, 0x01, 0x02].getD i 0) (fun _ => 0)
      = some ⟨[⟨.can1_receive_callback, 0x234, 0, false, true, 0⟩]
            ++ [(read_can_buffer (fun i => [0xAE, 0x22, 0x34, 0x12, 0x43, 0x01, 0x02].getD i 0)
                4 .can2_receive_callback 0).1],
          some (.field_reading_out_of_bounds
            ((read_can_buffer (fun i => [0xAE, 0x22, 0x34, 0x12, 0x43, 0x01, 0x02].getD i 0)
                4 .can2_receive_callback 0).2 - 7)), 1, false, 1⟩ :=
  C3_overlong_field_is_dispatched 1 7 4
    (fun i => [0xAE, 0x22, 0x34, 0x12, 0x43, 0x01, 0x02].getD i 0) (fun _ => 0) 3
    [⟨.can1_receive_callback, 0x234, 0, false, true, 0⟩] .can2_receive_callback
    (by decide) (by decide) (by decide) (by decide) (by decide) (by decide)

/-- C9, as stated, fails: the four bytes `AE 22 34 12` are a complete packet of one field
(CAN1, standard identifier `0x234`, remote, no data) that ends exactly at the end of the
received bytes, so `can1_receive_callback` is invoked and no error is logged. -/
theorem C9_counterexample :
    usb_receive_complete_callback 1 .LIBUSB_TRANSFER_COMPLETED 4
        (fun i => [0xAE, 0x22, 0x34, 0x12].getD i 0) (fun _ => 0)
      = some ⟨[⟨.can1_receive_callback, 0x234, 0, false, true, 0⟩], none, 1, false, 1⟩ := by
  decide

/-- C9, amended: whatever follows the four received bytes `AE 22 34 12` in the receive
array, whatever the counter and the indeterminate initial value `u` of `can_data`, the
completion invokes `can1_receive_callback` exactly once, with identifier `0x234`, standard
format, the remote flag set and data length 0, invokes `can2_receive_callback` not at all,
logs no error and resubmits the transfer once. -/
theorem C9_four_bytes_are_one_remote_frame (cnt : Int) (stale : List Nat)
    (uninit : Nat → Nat) :
    usb_receive_complete_callback cnt .LIBUSB_TRANSFER_COMPLETED 4
        (fun i => ([0xAE, 0x22, 0x34, 0x12] ++ stale).getD i 0) uninit
      = some ⟨[⟨.can1_receive_callback, 0x234, uninit 1, false, true, 0⟩], none, 1, false,
          cnt⟩ := by
  have hw : field_walk (fun i => ([0xAE, 0x22, 0x34, 0x12] ++ stale).getD i 0) 4 uninit 2 1
      = some ([⟨.can1_receive_callback, 0x234, uninit 1, false, true, 0⟩], 4) := by
    simp [field_walk, read_can_buffer, getBitField, StatusId.CAN1, sizeof_FieldHeader,
      sizeof_CanStandardId, mem_bytes, from_le]
  rw [usb_receive_walk cnt 4 _ uninit (by simp) (by omega) _ _ _ hw]
  simp

/-- C10, as stated, fails: in the packet `AE 22 34 12 00` the walk stops at the unrecognized
tag 0 at offset 4, before the end of the 5 received bytes, yet `can1_receive_callback` has
already been invoked for the field in front of it. -/
theorem C10_counterexample :
    usb_receive_complete_callback 1 .LIBUSB_TRANSFER_COMPLETED 5
        (fun i => [0xAE, 0x22, 0x34, 0x12, 0x00].getD i 0) (fun _ => 0)
      = some ⟨[⟨.can1_receive_callback, 0x234, 0, false, true, 0⟩],
          some (.unexpected_field_id 4 0), 1, false, 1⟩ := by
  decide

/-- C10, amended: when the fields of a completed packet that starts with `0xAE` tile the
bytes from offset 1 up to a cursor `q` below the end and the tag at `q` is neither CAN1 nor
CAN2, the callbacks of exactly the fields in front of `q` have been invoked, in order, none
is invoked for the bytes from `q` on, the unexpected-field-id error is logged for offset `q`
and the transfer is resubmitted once. -/
theorem C10_fields_before_unknown_tag_are_dispatched (cnt : Int) (actual_length q : Nat)
    (mem uninit : Nat → Nat) (f : Nat) (cs0 : List CallbackCall)
    (h0 : mem 0 = 0xAE) (h1 : 1 ≤ q) (hq : q < actual_length)
    (hreach : field_walk mem q uninit f 1 = some (cs0, q))
    (htag1 : getBitField (mem q) 0 4 ≠ StatusId.CAN1)
    (htag2 : getBitField (mem q) 0 4 ≠ StatusId.CAN2) :
    usb_receive_complete_callback cnt .LIBUSB_TRANSFER_COMPLETED actual_length mem uninit
      = some ⟨cs0, some (.unexpected_field_id q (mem q)), 1, false, cnt⟩ := by
  have hwalk : field_walk mem actual_length uninit 1 q = some ([], q) := by
    rw [field_walk_succ, if_pos hq, if_neg htag1, if_neg htag2]
  have hall := field_walk_split mem q actual_length uninit (by omega) f 1 cs0 hreach 1 _ _ hwalk
  rw [List.append_nil] at hall
  rw [usb_receive_walk cnt actual_length mem uninit h0 (by omega) _ _ _ hall]
  rw [if_pos (by omega), if_pos hq]

/-- Instance of C10 amended: two fields, then the unrecognized tag 5 and a further byte. -/
theorem C10_fields_before_unknown_tag_are_dispatched_witness :
    usb_receive_complete_callback 1 .LIBUSB_TRANSFER_COMPLETED 10
        (fun i => [0xAE, 0x22, 0x34, 0x12, 0x43, 0x01, 0x02, 0x99, 0x05, 0x07].getD i 0)
        (fun _ => 0)
      = some ⟨[⟨.can1_receive_callback, 0x234, 0, false, true, 0⟩,
            ⟨.can2_receive_callback, 0x201, 0x99, false, false, 1⟩],
          some (.unexpected_field_id 8
            ((fun i => [0xAE, 0x22, 0x34, 0x12, 0x43, 0x01, 0x02, 0x99, 0x05, 0x07].getD i 0)
              8)), 1, false, 1⟩ :=
  C10_fields_before_unknown_tag_are_dispatched 1 10 8
    (fun i => [0xAE, 0x22, 0x34, 0x12, 0x43, 0x01, 0x02, 0x99, 0x05, 0x07].getD i 0)
    (fun _ => 0) 4
    [⟨.can1_receive_callback, 0x234, 0, false, true, 0⟩,
      ⟨.can2_receive_callback, 0x201, 0x99, false, false, 1⟩]
    (by decide) (by decide) (by decide) (by decide) (by decide) (by decide)

end rmcs_core.hardware.forwarder

namespace usb_cdc

set_option maxRecDepth 100000

/-! ## The package container -/

/-- C5 on the code: with capacity 1, after the two pushes of `a` and of `b` the container
signals empty at the first `pop` (the eviction path of `push` leaves `count_` at 0 while `b`
stays linked); with capacity 2, after the three pushes of `a`, `b` and `c`, the pops return
`b` and then signal empty. -/
theorem C5_push_on_full_container_loses_a_package :
    (((PackageContainer.new 1).push (package_of [1])).push (package_of [2])).pop.1 = none ∧
    ((((PackageContainer.new 2).push (package_of [1])).push (package_of [2])).push
        (package_of [3])).pop.1 = some (package_of [2]) ∧
    ((((PackageContainer.new 2).push (package_of [1])).push (package_of [2])).push
        (package_of [3])).pop.2.pop.1 = none := by
  decide

/-! ## The framer -/

end usb_cdc

namespace usb_cdc

theorem update_succ (fuel : Nat) (s : PackageDeliver) :
    update (fuel + 1) s =
      match update_iteration s with
      | .again s' => update fuel s'
      | .stop s' => .returned s'
      | .buffer_overrun => .buffer_overrun := by
  rw [update]
  simp only [update_iteration, receive_payload]
  cases (receive_static_part s).1 <;> simp only
  split
  · rfl
  · split
    · rfl
    · split
      · rfl
      · split <;> rfl

/-! ## Bounded count -/

theorem pop_count_le (c : PackageContainer) :
    c.pop.2.count_ ≤ c.count_ ∧ c.pop.2.max_keep_count_ = c.max_keep_count_ := by
  unfold PackageContainer.pop
  split
  · exact ⟨le_refl _, rfl⟩
  · split
    · exact ⟨le_refl _, rfl⟩
    · exact ⟨Nat.sub_le _ _, rfl⟩

theorem push_count_le (c : PackageContainer) (p : Package)
    (h : c.count_ ≤ c.max_keep_count_) :
    (c.push p).count_ ≤ c.max_keep_count_ ∧
      (c.push p).max_keep_count_ = c.max_keep_count_ := by
  unfold PackageContainer.push
  by_cases h0 : c.count_ = 0
  · simp only [if_pos h0]
    split
    · rename_i hfull
      have := pop_count_le { c with chain := [p] }
      simp only at this hfull
      exact ⟨by omega, this.2⟩
    · rename_i hfull
      exact ⟨by simp only at hfull ⊢; omega, rfl⟩
  · simp only [if_neg h0]
    split
    · rename_i hfull
      have := pop_count_le { c with chain := c.chain ++ [p] }
      simp only at this hfull
      exact ⟨by omega, this.2⟩
    · rename_i hfull
      exact ⟨by simp only at hfull ⊢; omega, rfl⟩

theorem run_count_le : ∀ (calls : List ContainerCall) (c : PackageContainer),
    c.count_ ≤ c.max_keep_count_ →
    (c.run calls).count_ ≤ c.max_keep_count_ ∧
      (c.run calls).max_keep_count_ = c.max_keep_count_ := by
  intro calls
  induction calls with
  | nil => intro c h; exact ⟨h, rfl⟩
  | cons call calls ih =>
    intro c h
    cases call with
    | push p =>
      obtain ⟨h1, h2⟩ := push_count_le c p h
      have := ih (c.push p) (by rw [h2]; exact h1)
      rw [h2] at this
      exact this
    | pop =>
      obtain ⟨h1, h2⟩ := pop_count_le c
      have := ih c.pop.2 (by rw [h2]; omega)
      rw [h2] at this
      exact this

/-- C18: bounded count. For every capacity `c` of at least 1 and every sequence of calls of
`push` and `pop` on a container constructed with that capacity, `count_` is at most `c`
after the sequence, hence after each of its calls. -/
theorem C18_bounded_count (c : Nat) (calls : List ContainerCall) (_hc : 1 ≤ c) :
    ((PackageContainer.new c).run calls).count_ ≤ c ∧
      ∀ k, ((PackageContainer.new c).run (calls.take k)).count_ ≤ c := by
  have h0 : (PackageContainer.new c).count_ ≤ (PackageContainer.new c).max_keep_count_ :=
    Nat.zero_le _
  exact ⟨(run_count_le calls _ h0).1, fun k => (run_count_le (calls.take k) _ h0).1⟩

/-- Instance of C18: capacity 2 and the calls push, push, push, pop, push. -/
theorem C18_bounded_count_witness :
    ((PackageContainer.new 2).run
        [.push (package_of [1]), .push (package_of [2]), .push (package_of [3]), .pop,
          .push (package_of [4])]).count_ ≤ 2 ∧
      ∀ k, ((PackageContainer.new 2).run
        ([ContainerCall.push (package_of [1]), .push (package_of [2]),
          .push (package_of [3]), .pop, .push (package_of [4])].take k)).count_ ≤ 2 :=
  C18_bounded_count 2
    [.push (package_of [1]), .push (package_of [2]), .push (package_of [3]), .pop,
      .push (package_of [4])] (by decide)

/-! ## One iteration of `update` -/

open rmcs_core.hardware.forwarder (write_bytes)

theorem find_set_same (m : List (Nat × PackageContainer)) (t : Nat)
    (c c' : PackageContainer) (h : find_container m t = some c) :
    find_container (set_container m t c') t = some c' := by
  induction m with
  | nil => simp [find_container] at h
  | cons e m ih =>
    by_cases he : e.1 = t
    · simp [find_container, set_container, List.find?, he]
    · have h' : find_container m t = some c := by
        simpa [find_container, List.find?, he] using h
      have := ih h'
      simpa [find_container, set_container, List.find?, he] using this

theorem find_set_other (m : List (Nat × PackageContainer)) (t t' : Nat)
    (c' : PackageContainer) (h : t' ≠ t) :
    find_container (set_container m t c') t' = find_container m t' := by
  induction m with
  | nil => rfl
  | cons e m ih =>
    by_cases he : e.1 = t
    · have he' : ¬ e.1 = t' := by rw [he]; exact fun x => h x.symm
      simpa [find_container, set_container, List.find?, he, he', Ne.symm h] using ih
    · by_cases he' : e.1 = t'
      · subst he'
        simp [find_container, set_container, List.find?, he]
      · simpa [find_container, set_container, List.find?, he, he'] using ih

theorem size_t_sub (real rs : Nat) (h1 : rs ≤ real) (h2 : real < SIZE_MAX_plus_1) :
    (real + SIZE_MAX_plus_1 - rs) % SIZE_MAX_plus_1 = real - rs := by
  have : real + SIZE_MAX_plus_1 - rs = (real - rs) + SIZE_MAX_plus_1 := by omega
  rw [this, Nat.add_mod_right, Nat.mod_eq_of_lt (by omega)]

theorem receive_payload_incomplete (s : PackageDeliver)
    (hds : s.receiving_package.buffer.getD 3 0 ≤ 59)
    (hrs : s.received_size_ ≤ 5 + s.receiving_package.buffer.getD 3 0)
    (hpend : s.serial_.length < 5 + s.receiving_package.buffer.getD 3 0 - s.received_size_) :
    receive_payload s
      = .stop ⟨[], s.subscribed_containers_,
          ⟨write_bytes s.receiving_package.buffer s.received_size_ s.serial_⟩,
          s.received_size_ + s.serial_.length⟩ := by
  have hsz := size_t_sub (4 + s.receiving_package.buffer.getD 3 0 + 1) s.received_size_
    (by omega) (by simp only [SIZE_MAX_plus_1]; omega)
  have htake : s.serial_.take (4 + s.receiving_package.buffer.getD 3 0 + 1 - s.received_size_)
      = s.serial_ := List.take_of_length_le (by omega)
  have hdrop : s.serial_.drop (4 + s.receiving_package.buffer.getD 3 0 + 1 - s.received_size_)
      = [] := List.drop_of_length_le (by omega)
  simp only [receive_payload, sizeof_PackageStaticPart, sizeof_package_verify_code_t, hsz,
    htake, hdrop, package_size_max]
  rw [if_neg (by omega), if_pos (by omega)]

theorem receive_payload_complete (s : PackageDeliver)
    (hds : s.receiving_package.buffer.getD 3 0 ≤ 59)
    (hrs : s.received_size_ ≤ 5 + s.receiving_package.buffer.getD 3 0)
    (hpend : 5 + s.receiving_package.buffer.getD 3 0 - s.received_size_ ≤ s.serial_.length) :
    receive_payload s
      = match find_container s.subscribed_containers_
          ((write_bytes s.receiving_package.buffer s.received_size_
            (s.serial_.take
              (5 + s.receiving_package.buffer.getD 3 0 - s.received_size_))).getD 1 0) with
        | none =>
          .again ⟨s.serial_.drop (5 + s.receiving_package.buffer.getD 3 0 - s.received_size_),
            s.subscribed_containers_,
            ⟨write_bytes s.receiving_package.buffer s.received_size_
              (s.serial_.take (5 + s.receiving_package.buffer.getD 3 0 - s.received_size_))⟩,
            0⟩
        | some container =>
          .again ⟨s.serial_.drop (5 + s.receiving_package.buffer.getD 3 0 - s.received_size_),
            set_container s.subscribed_containers_
              ((write_bytes s.receiving_package.buffer s.received_size_
                (s.serial_.take
                  (5 + s.receiving_package.buffer.getD 3 0 - s.received_size_))).getD 1 0)
              (container.push
                ⟨write_bytes s.receiving_package.buffer s.received_size_
                  (s.serial_.take
                    (5 + s.receiving_package.buffer.getD 3 0 - s.received_size_))⟩),
            Package.zero, 5 + s.receiving_package.buffer.getD 3 0⟩ := by
  have hsz := size_t_sub (4 + s.receiving_package.buffer.getD 3 0 + 1) s.received_size_
    (by omega) (by simp only [SIZE_MAX_plus_1]; omega)
  have h5 : 4 + s.receiving_package.buffer.getD 3 0 + 1
      = 5 + s.receiving_package.buffer.getD 3 0 := by omega
  have hlen : (s.serial_.take (5 + s.receiving_package.buffer.getD 3 0 - s.received_size_)).length
      = 5 + s.receiving_package.buffer.getD 3 0 - s.received_size_ := by
    rw [List.length_take]; omega
  simp only [receive_payload, sizeof_PackageStaticPart, sizeof_package_verify_code_t, hsz,
    package_size_max]
  simp only [h5, hlen]
  rw [if_neg (by omega), if_neg (by omega)]
  have hsum : s.received_size_ + (5 + s.receiving_package.buffer.getD 3 0 - s.received_size_)
      = 5 + s.receiving_package.buffer.getD 3 0 := by omega
  rw [hsum]

/-- C13: oversize package. Let `receive_static_part` return `SUCCESS` with a buffered
header whose head is `0xAF`. When its data size is 60 or more (total size above 64), the
iteration of `update` sets `received_size_` to 0, changes neither the queues nor anything
else, and goes on with the next iteration. When its data size is 59 or less, the iteration
goes on to read the payload (lines 120-137); in particular, when fewer bytes are pending
than the package still misses, they are all stored behind the bytes received so far and
`update` returns with the count increased by their number. -/
theorem C13_oversize_package (s s1 : PackageDeliver)
    (hrecv : receive_static_part s = (.SUCCESS, s1))
    (_hhead : s1.receiving_package.buffer.getD 0 0 = package_head) :
    (60 ≤ s1.receiving_package.data_size →
      update_iteration s
          = .again ⟨s1.serial_, s1.subscribed_containers_, s1.receiving_package, 0⟩ ∧
        ∀ fuel, update (fuel + 1) s
          = update fuel ⟨s1.serial_, s1.subscribed_containers_, s1.receiving_package, 0⟩) ∧
    (s1.receiving_package.data_size ≤ 59 →
      update_iteration s = receive_payload s1 ∧
        (s1.received_size_ ≤ 5 + s1.receiving_package.data_size →
          s1.serial_.length < 5 + s1.receiving_package.data_size - s1.received_size_ →
          ∀ fuel, update (fuel + 1) s
            = .returned ⟨[], s1.subscribed_containers_,
                ⟨write_bytes s1.receiving_package.buffer s1.received_size_ s1.serial_⟩,
                s1.received_size_ + s1.serial_.length⟩)) := by
  refine ⟨?_, ?_⟩
  · intro hbig
    have hgt : sizeof_PackageStaticPart + s1.receiving_package.buffer.getD 3 0
        + sizeof_package_verify_code_t > package_size_max := by
      simp only [Package.data_size] at hbig
      simp only [sizeof_PackageStaticPart, sizeof_package_verify_code_t, package_size_max]
      omega
    have hit : update_iteration s
        = .again ⟨s1.serial_, s1.subscribed_containers_, s1.receiving_package, 0⟩ := by
      simp only [update_iteration, hrecv, if_pos hgt]
    refine ⟨hit, ?_⟩
    intro fuel
    rw [update_succ, hit]
  · intro hsmall
    have hle : ¬ (sizeof_PackageStaticPart + s1.receiving_package.buffer.getD 3 0
        + sizeof_package_verify_code_t > package_size_max) := by
      simp only [Package.data_size] at hsmall
      simp only [sizeof_PackageStaticPart, sizeof_package_verify_code_t, package_size_max]
      omega
    have hit : update_iteration s = receive_payload s1 := by
      simp only [update_iteration, hrecv, if_neg hle]
    refine ⟨hit, ?_⟩
    intro hrs hpend fuel
    simp only [Package.data_size] at hsmall hrs hpend
    rw [update_succ, hit, receive_payload_incomplete s1 hsmall hrs hpend]

/-- Instance of C13: the header `AF 02 00 3C` declares a data size of 60. -/
theorem C13_oversize_package_witness :
    (60 ≤ framer_oversize_header.receiving_package.data_size →
      update_iteration framer_oversize
          = .again ⟨framer_oversize_header.serial_,
              framer_oversize_header.subscribed_containers_,
              framer_oversize_header.receiving_package, 0⟩ ∧
        ∀ fuel, update (fuel + 1) framer_oversize
          = update fuel ⟨framer_oversize_header.serial_,
              framer_oversize_header.subscribed_containers_,
              framer_oversize_header.receiving_package, 0⟩) ∧
    (framer_oversize_header.receiving_package.data_size ≤ 59 →
      update_iteration framer_oversize = receive_payload framer_oversize_header ∧
        (framer_oversize_header.received_size_
            ≤ 5 + framer_oversize_header.receiving_package.data_size →
          framer_oversize_header.serial_.length
            < 5 + framer_oversize_header.receiving_package.data_size
              - framer_oversize_header.received_size_ →
          ∀ fuel, update (fuel + 1) framer_oversize
            = .returned ⟨[], framer_oversize_header.subscribed_containers_,
                ⟨write_bytes framer_oversize_header.receiving_package.buffer
                  framer_oversize_header.received_size_ framer_oversize_header.serial_⟩,
                framer_oversize_header.received_size_
                  + framer_oversize_header.serial_.length⟩)) :=
  C13_oversize_package framer_oversize framer_oversize_header (by decide) (by decide)

theorem update_spins (c : PackageContainer) :
    update_iteration ⟨[], [(0, c)], Package.zero, 5⟩
      = .again ⟨[], [(0, c.push Package.zero)], Package.zero, 5⟩ := by
  have hz : write_bytes Package.zero.buffer 5 [] = Package.zero.buffer := by decide
  have h3 : Package.zero.buffer[3]?.getD 0 = 0 := by decide
  have h1 : Package.zero.buffer[1]?.getD 0 = 0 := by decide
  simp [update_iteration, receive_static_part, receive_payload, sizeof_PackageStaticPart,
    sizeof_package_verify_code_t, package_size_max, SIZE_MAX_plus_1, h3, h1, hz,
    find_container, set_container]

theorem update_spins_forever : ∀ (fuel : Nat) (c : PackageContainer),
    update fuel ⟨[], [(0, c)], Package.zero, 5⟩ = .out_of_fuel := by
  intro fuel
  induction fuel with
  | zero => intro c; rfl
  | succ fuel ih =>
    intro c
    rw [update_succ, update_spins]
    exact ih _

/-- C12 on the code: with type 0 subscribed and the package `AF 00 00 00 5A` pending,
`update` does not return: after the push of the package `received_size_` is still 5, so
every further iteration takes the fresh zeroed array for a complete package of type 0 and
data size 0 and pushes it, whatever the number of iterations allowed. -/
theorem C12_update_does_not_return :
    ∀ fuel, update fuel (subscribe (PackageDeliver.new [0xAF, 0x00, 0x00, 0x00, 0x5A]) 0 1)
      = .out_of_fuel := by
  intro fuel
  cases fuel with
  | zero => rfl
  | succ fuel =>
    have h : update_iteration (subscribe (PackageDeliver.new [0xAF, 0x00, 0x00, 0x00, 0x5A]) 0 1)
        = .again ⟨[], [(0, (PackageContainer.new 1).push (package_of [0xAF, 0x00, 0x00, 0x00, 0x5A]))],
            Package.zero, 5⟩ := by
      decide
    rw [update_succ, h]
    exact update_spins_forever fuel _

/-! ## Resynchronisation -/

theorem shift_down_succ (B : List Nat) (hp k : Nat) :
    shift_down B hp (k + 1)
      = (shift_down B hp k).set k ((shift_down B hp k).getD (hp + k) 0) := by
  simp [shift_down, List.range_succ, List.foldl_append]

theorem length_shift_down (B : List Nat) (hp k : Nat) :
    (shift_down B hp k).length = B.length := by
  induction k with
  | zero => simp [shift_down]
  | succ k ih => rw [shift_down_succ, List.length_set, ih]

theorem getElem?_shift_down (B : List Nat) (hp : Nat) (h1 : 1 ≤ hp) :
    ∀ k, hp + k ≤ B.length → ∀ i,
      (shift_down B hp k)[i]? = if i < k then B[hp + i]? else B[i]? := by
  intro k
  induction k with
  | zero => intro _ i; simp [shift_down]
  | succ k ih =>
    intro hk i
    have ih' := ih (by omega)
    rw [shift_down_succ, List.getElem?_set]
    have hv : (shift_down B hp k).getD (hp + k) 0 = B.getD (hp + k) 0 := by
      rw [List.getD_eq_getElem?_getD, List.getD_eq_getElem?_getD, ih' (hp + k),
        if_neg (by omega)]
    rw [hv, length_shift_down]
    by_cases hik : k = i
    · subst hik
      rw [if_pos rfl, if_pos (by omega), if_pos (by omega)]
      rw [List.getD_eq_getElem?_getD, List.getElem?_eq_getElem (by omega)]
      rfl
    · rw [if_neg hik, ih' i]
      by_cases hlt : i < k
      · rw [if_pos hlt, if_pos (by omega)]
      · rw [if_neg hlt, if_neg (by omega)]

theorem take_shift_down (B : List Nat) (hp k : Nat) (h1 : 1 ≤ hp) (hk : hp + k ≤ B.length) :
    (shift_down B hp k).take k = (B.drop hp).take k := by
  apply List.ext_getElem?
  intro i
  rw [List.getElem?_take, List.getElem?_take, getElem?_shift_down B hp h1 k hk i,
    List.getElem?_drop]
  by_cases hi : i < k
  · simp [hi]
  · simp [hi]

theorem resync_loop_spec (B : List Nat) : ∀ (k hp : Nat), 1 ≤ hp → hp + k ≤ B.length →
    (resync_loop B k hp).1.take (resync_loop B k hp).2
        = ((B.drop hp).take k).dropWhile (fun x => x != package_head) ∧
      (resync_loop B k hp).2
        = (((B.drop hp).take k).dropWhile (fun x => x != package_head)).length ∧
      (resync_loop B k hp).1.length = B.length := by
  intro k
  induction k with
  | zero =>
    intro hp _ _
    simp [resync_loop, shift_down]
  | succ k ih =>
    intro hp h1 hk
    have hlt : hp < B.length := by omega
    have hcons : (B.drop hp).take (k + 1) = B[hp] :: (B.drop (hp + 1)).take k := by
      rw [List.drop_eq_getElem_cons hlt, List.take_succ_cons]
    have hget : B.getD hp 0 = B[hp] := by
      rw [List.getD_eq_getElem?_getD, List.getElem?_eq_getElem hlt]
      rfl
    rw [resync_loop, hget, hcons]
    by_cases hh : B[hp] = package_head
    · rw [if_pos hh]
      have hd : ∀ tl : List Nat, List.dropWhile (fun x => x != package_head) (B[hp] :: tl)
          = B[hp] :: tl := by
        intro tl
        rw [List.dropWhile_cons]
        simp [hh]
      rw [hd]
      refine ⟨?_, ?_, length_shift_down _ _ _⟩
      · rw [take_shift_down B hp (k + 1) h1 hk, hcons]
      · simp only [List.length_cons, List.length_take, List.length_drop]
        omega
    · rw [if_neg hh]
      have hd : ∀ tl : List Nat, List.dropWhile (fun x => x != package_head) (B[hp] :: tl)
          = List.dropWhile (fun x => x != package_head) tl := by
        intro tl
        rw [List.dropWhile_cons]
        simp [hh]
      rw [hd]
      exact ih (hp + 1) (by omega) (by omega)

/-- C20: resynchronisation step. When `receive_static_part` is entered with fewer than 4
bytes buffered and, after its read from the port, finds at least one byte buffered (at most
4) the first of which is not `0xAF`, it returns `INVAILD_HEADER`; the bytes it retains at the
start of the array are the suffix of the buffered bytes that starts at the first `0xAF`
behind position 0, none when there is no such byte, and `received_size_` is the length of
that suffix. The array keeps its size, the bytes read are consumed from the port and the
containers are unchanged. -/
theorem C20_resynchronisation_step (s : PackageDeliver)
    (hbuf : s.receiving_package.buffer.length = 64) (hrs : s.received_size_ < 4)
    (hne : buffered_after_read s ≠ [])
    (hhead : (buffered_after_read s).head? ≠ some package_head) :
    (buffered_after_read s).length ≤ 4 ∧
    (receive_static_part s).1 = .INVAILD_HEADER ∧
    (receive_static_part s).2.receiving_package.buffer.take
        (receive_static_part s).2.received_size_
      = (buffered_after_read s).tail.dropWhile (fun x => x != package_head) ∧
    (receive_static_part s).2.received_size_
      = ((buffered_after_read s).tail.dropWhile (fun x => x != package_head)).length ∧
    (receive_static_part s).2.receiving_package.buffer.length = 64 ∧
    (receive_static_part s).2.serial_
      = s.serial_.drop (sizeof_PackageStaticPart - s.received_size_) ∧
    (receive_static_part s).2.subscribed_containers_ = s.subscribed_containers_ := by
  obtain ⟨serial, subs, ⟨buffer⟩, rs⟩ := s
  simp only at hbuf hrs
  simp only [buffered_after_read, sizeof_PackageStaticPart] at hne hhead ⊢
  generalize hgot : serial.take (4 - rs) = got at hne hhead ⊢
  have hgl : got.length ≤ 4 - rs := by rw [← hgot, List.length_take]; omega
  have hpre : (buffer.take rs).length = rs := by rw [List.length_take]; omega
  have hlenb : (buffer.take rs ++ got).length = rs + got.length := by
    rw [List.length_append, hpre]
  have hm : 1 ≤ rs + got.length := by
    rw [← hlenb]
    exact List.length_pos.mpr hne
  have hB : write_bytes buffer rs got
      = (buffer.take rs ++ got) ++ buffer.drop (rs + got.length) := rfl
  have hBlen : (write_bytes buffer rs got).length = 64 := by
    rw [hB, List.length_append, hlenb, List.length_drop]; omega
  have hBtake : (write_bytes buffer rs got).take (rs + got.length) = buffer.take rs ++ got := by
    rw [hB, ← hlenb, List.take_left]
  have hB0 : (write_bytes buffer rs got).getD 0 0 ≠ package_head := by
    intro h0
    apply hhead
    rw [← hBtake, List.head?_take, if_neg (by omega)]
    rw [List.getD_eq_getElem?_getD] at h0
    rw [List.head?_eq_getElem?]
    have hlt : 0 < (write_bytes buffer rs got).length := by omega
    rw [List.getElem?_eq_getElem hlt] at h0 ⊢
    simp only [Option.getD_some] at h0
    rw [h0]
  have hspec := resync_loop_spec (write_bytes buffer rs got) (rs + got.length - 1) 1
    (le_refl _) (by omega)
  have htail : ((write_bytes buffer rs got).drop 1).take (rs + got.length - 1)
      = (buffer.take rs ++ got).tail := by
    rw [← List.drop_take, hBtake, List.drop_one]
  rw [htail] at hspec
  have hnot4 : ¬ (rs ≥ 4) := by omega
  have hnot1 : ¬ (rs + got.length < 1) := by omega
  simp only [receive_static_part, sizeof_PackageStaticPart, sizeof_package_head_t, hgot,
    if_neg hnot4, if_neg hnot1, if_neg hB0]
  exact ⟨by omega, trivial, hspec.1, hspec.2.1, hspec.2.2.trans hBlen, trivial, trivial⟩

/-- Instance of C20: `11` buffered and `55 AF 02` pending; `AF 02` is retained. -/
theorem C20_resynchronisation_step_witness :
    (buffered_after_read framer_out_of_sync).length ≤ 4 ∧
    (receive_static_part framer_out_of_sync).1 = .INVAILD_HEADER ∧
    (receive_static_part framer_out_of_sync).2.receiving_package.buffer.take
        (receive_static_part framer_out_of_sync).2.received_size_
      = (buffered_after_read framer_out_of_sync).tail.dropWhile
          (fun x => x != package_head) ∧
    (receive_static_part framer_out_of_sync).2.received_size_
      = ((buffered_after_read framer_out_of_sync).tail.dropWhile
          (fun x => x != package_head)).length ∧
    (receive_static_part framer_out_of_sync).2.receiving_package.buffer.length = 64 ∧
    (receive_static_part framer_out_of_sync).2.serial_
      = framer_out_of_sync.serial_.drop
          (sizeof_PackageStaticPart - framer_out_of_sync.received_size_) ∧
    (receive_static_part framer_out_of_sync).2.subscribed_containers_
      = framer_out_of_sync.subscribed_containers_ :=
  C20_resynchronisation_step framer_out_of_sync (by decide) (by decide) (by decide)
    (by decide)

/-! ## Count after a package and the verification byte -/

theorem receive_static_part_ne_verify (s : PackageDeliver) :
    (receive_static_part s).1 ≠ .INVAILD_VERIFY_DEGIT := by
  unfold receive_static_part
  split
  · simp
  · simp only
    split
    · simp
    · split
      · split <;> simp
      · simp

theorem receive_static_part_package (subs : List (Nat × PackageContainer))
    (buffer : List Nat) (type index : Nat) (payload rest : List Nat) (v : Nat) :
    receive_static_part ⟨package_stream type index payload v ++ rest, subs, ⟨buffer⟩, 0⟩
      = (.SUCCESS, ⟨payload ++ [v] ++ rest, subs,
          ⟨[package_head, type, index, payload.length] ++ buffer.drop 4⟩, 4⟩) := by
  simp [receive_static_part, package_stream, write_bytes, sizeof_PackageStaticPart,
    sizeof_package_head_t]

theorem update_iteration_package (subs : List (Nat × PackageContainer))
    (buffer : List Nat) (type index : Nat) (payload rest : List Nat) (v : Nat)
    (hlen : payload.length ≤ 59) :
    (∀ container, find_container subs type = some container →
      update_iteration ⟨package_stream type index payload v ++ rest, subs, ⟨buffer⟩, 0⟩
        = .again ⟨rest,
            set_container subs type
              (container.push
                (received_package type index payload v buffer)),
            Package.zero, 5 + payload.length⟩) ∧
    (find_container subs type = none →
      update_iteration ⟨package_stream type index payload v ++ rest, subs, ⟨buffer⟩, 0⟩
        = .again ⟨rest, subs,
            (received_package type index payload v buffer),
            0⟩) := by
  have hrecv := receive_static_part_package subs buffer type index payload rest v
  have hle : ¬ (sizeof_PackageStaticPart + payload.length + sizeof_package_verify_code_t
      > package_size_max) := by
    simp only [sizeof_PackageStaticPart, sizeof_package_verify_code_t, package_size_max]
    omega
  have hds : (([package_head, type, index, payload.length] ++ buffer.drop 4).getD 3 0)
      = payload.length := by simp
  have hit : update_iteration ⟨package_stream type index payload v ++ rest, subs, ⟨buffer⟩, 0⟩
      = receive_payload ⟨payload ++ [v] ++ rest, subs,
          ⟨[package_head, type, index, payload.length] ++ buffer.drop 4⟩, 4⟩ := by
    simp only [update_iteration, hrecv, hds, if_neg hle]
  have hpay := receive_payload_complete ⟨payload ++ [v] ++ rest, subs,
      ⟨[package_head, type, index, payload.length] ++ buffer.drop 4⟩, 4⟩
    (by simp only [hds]; exact hlen) (by simp only [hds]; omega)
    (by simp only [hds, List.length_append, List.length_singleton]; omega)
  simp only [hds] at hpay
  have h5 : 5 + payload.length - 4 = payload.length + 1 := by omega
  have htake : (payload ++ [v] ++ rest).take (payload.length + 1) = payload ++ [v] := by
    have : payload.length + 1 = (payload ++ [v]).length := by simp
    rw [this, List.take_left]
  have hdrop : (payload ++ [v] ++ rest).drop (payload.length + 1) = rest := by
    have : payload.length + 1 = (payload ++ [v]).length := by simp
    rw [this, List.drop_left]
  have hw : write_bytes ([package_head, type, index, payload.length] ++ buffer.drop 4) 4
      (payload ++ [v])
      = package_stream type index payload v ++ buffer.drop (5 + payload.length) := by
    have h4 : (4 : Nat) = [package_head, type, index, payload.length].length := rfl
    rw [h4, rmcs_core.hardware.forwarder.write_bytes_left]
    simp only [package_stream, List.length_append, List.length_singleton, List.drop_drop,
      List.append_assoc, List.length_cons, List.length_nil]
    have hn : 0 + 1 + 1 + 1 + 1 + (payload.length + (0 + 1)) = 5 + payload.length := by
      omega
    rw [hn]
  have htype : (package_stream type index payload v ++ buffer.drop (5 + payload.length)).getD 1 0
      = type := by simp [package_stream]
  rw [h5, htake, hdrop, hw, htype] at hpay
  simp only [received_package]
  rw [hit, hpay]
  refine ⟨?_, ?_⟩
  · intro container hfind
    rw [hfind]
  · intro hfind
    rw [hfind]

theorem write_bytes_nil (b : List Nat) (k : Nat) : write_bytes b k [] = b := by
  simp [write_bytes]

theorem update_iteration_idle (m : List (Nat × PackageContainer)) (p : Package) :
    update_iteration ⟨[], m, p, 0⟩ = .stop ⟨[], m, p, 0⟩ := by
  simp [update_iteration, receive_static_part, sizeof_PackageStaticPart,
    sizeof_package_head_t, write_bytes_nil]

theorem update_iteration_stale (m : List (Nat × PackageContainer)) (k : Nat)
    (h5 : 5 ≤ k) (h64 : k ≤ 64) :
    update_iteration ⟨[], m, Package.zero, k⟩
      = match find_container m 0 with
        | none => .again ⟨[], m, Package.zero, 0⟩
        | some container =>
          .again ⟨[], set_container m 0 (container.push Package.zero), Package.zero, k⟩ := by
  have h3 : Package.zero.buffer.getD 3 0 = 0 := by decide
  have h1 : Package.zero.buffer.getD 1 0 = 0 := by decide
  have hge : k ≥ sizeof_PackageStaticPart := by simp only [sizeof_PackageStaticPart]; omega
  have hrecv : receive_static_part ⟨[], m, Package.zero, k⟩
      = (.SUCCESS, ⟨[], m, Package.zero, k⟩) := by
    simp only [receive_static_part, if_pos hge]
  have hle : ¬ (sizeof_PackageStaticPart + sizeof_package_verify_code_t
      > package_size_max) := by decide
  have hno : ¬ (k > package_size_max) := by simp only [package_size_max]; omega
  have hlt : ¬ (k < sizeof_PackageStaticPart + sizeof_package_verify_code_t) := by
    simp only [sizeof_PackageStaticPart, sizeof_package_verify_code_t]; omega
  simp only [update_iteration, hrecv, h3, receive_payload, List.take_nil,
    List.length_nil, write_bytes_nil, List.drop_nil, h1, Nat.add_zero, if_neg hle,
    if_neg hno, if_neg hlt]

theorem update_stale_spins : ∀ (fuel : Nat) (m : List (Nat × PackageContainer)) (k : Nat)
    (c0 : PackageContainer), 5 ≤ k → k ≤ 64 → find_container m 0 = some c0 →
    update fuel ⟨[], m, Package.zero, k⟩ = .out_of_fuel := by
  intro fuel
  induction fuel with
  | zero => intro m k c0 _ _ _; rfl
  | succ fuel ih =>
    intro m k c0 h5 h64 hfind
    rw [update_succ, update_iteration_stale m k h5 h64, hfind]
    exact ih _ k _ h5 h64 (find_set_same m 0 c0 _ hfind)

theorem update_stale_returns (fuel : Nat) (m : List (Nat × PackageContainer)) (k : Nat)
    (h5 : 5 ≤ k) (h64 : k ≤ 64) (hfind : find_container m 0 = none) :
    update (fuel + 2) ⟨[], m, Package.zero, k⟩ = .returned ⟨[], m, Package.zero, 0⟩ := by
  rw [update_succ, update_iteration_stale m k h5 h64, hfind]
  simp only
  rw [update_succ, update_iteration_idle]

/-- C21 on the code: with type 2 subscribed and the bytes `AF 02 00 01 11 5A 77` pending, the
iteration of `update` that completes and pushes the package `AF 02 00 01 11 5A` hands over
to the next iteration with `received_size_` 6, not 0; without a subscriber the same
iteration hands over with `received_size_` 0. -/
theorem C21_count_is_not_reset_after_a_push :
    update_iteration framer_one_package
      = .again ⟨[0x77],
          [(2, ⟨1, 1, [package_of [0xAF, 0x02, 0x00, 0x01, 0x11, 0x5A]]⟩)], Package.zero, 6⟩ ∧
    update_iteration (PackageDeliver.new [0xAF, 0x02, 0x00, 0x01, 0x11, 0x5A, 0x77])
      = .again ⟨[0x77], [], package_of [0xAF, 0x02, 0x00, 0x01, 0x11, 0x5A], 0⟩ := by
  decide

/-- C22: the verification byte does not influence delivery. `receive_static_part` never
returns `INVAILD_VERIFY_DEGIT`. For a framer at the start of a package and each of two
pending streams that are the same complete package up to the verification byte (`v` or
`v'`): with a container subscribed for the type, the iteration pushes the package to that
container and leaves `received_size_` at the size of the package, and `update` then returns
with `received_size_` 0 when type 0 has no container and does not return when it has one;
without a container for the type, the iteration discards the package and `update` returns
with `received_size_` 0 and the containers unchanged. Nothing but the array of the package
depends on the verification byte. -/
theorem C22_verification_byte_is_ignored (subs : List (Nat × PackageContainer))
    (buffer : List Nat) (type index : Nat) (payload : List Nat) (v v' : Nat)
    (hlen : payload.length ≤ 59) :
    (∀ s, (receive_static_part s).1 ≠ .INVAILD_VERIFY_DEGIT) ∧
    ∀ x ∈ [v, v'],
      (∀ container, find_container subs type = some container →
        update_iteration ⟨package_stream type index payload x, subs, ⟨buffer⟩, 0⟩
            = .again ⟨[],
                set_container subs type
                  (container.push (received_package type index payload x buffer)),
                Package.zero, 5 + payload.length⟩ ∧
          (find_container subs 0 = none →
            ∀ fuel, update (fuel + 3) ⟨package_stream type index payload x, subs, ⟨buffer⟩, 0⟩
              = .returned ⟨[],
                  set_container subs type
                    (container.push (received_package type index payload x buffer)),
                  Package.zero, 0⟩) ∧
          (∀ c0, find_container subs 0 = some c0 →
            ∀ fuel, update fuel ⟨package_stream type index payload x, subs, ⟨buffer⟩, 0⟩
              = .out_of_fuel)) ∧
      (find_container subs type = none →
        update_iteration ⟨package_stream type index payload x, subs, ⟨buffer⟩, 0⟩
            = .again ⟨[], subs, received_package type index payload x buffer, 0⟩ ∧
          ∀ fuel, update (fuel + 2) ⟨package_stream type index payload x, subs, ⟨buffer⟩, 0⟩
            = .returned ⟨[], subs, received_package type index payload x buffer, 0⟩) := by
  refine ⟨receive_static_part_ne_verify, ?_⟩
  intro x _
  have hit := update_iteration_package subs buffer type index payload [] x hlen
  simp only [List.append_nil] at hit
  obtain ⟨hsome, hnone⟩ := hit
  refine ⟨?_, ?_⟩
  · intro container hfind
    have hstep := hsome container hfind
    refine ⟨hstep, ?_, ?_⟩
    · intro h0 fuel
      have hne : (0 : Nat) ≠ type := by
        intro h
        rw [← h, h0] at hfind
        exact absurd hfind (by simp)
      rw [update_succ, hstep]
      exact update_stale_returns fuel _ _ (by omega) (by omega)
        (by rw [find_set_other _ _ _ _ hne]; exact h0)
    · intro c0 h0 fuel
      cases fuel with
      | zero => rfl
      | succ fuel =>
        rw [update_succ, hstep]
        by_cases ht : (0 : Nat) = type
        · exact update_stale_spins fuel _ _ _ (by omega) (by omega)
            (by rw [← ht] at hfind ⊢; exact find_set_same _ _ _ _ hfind)
        · exact update_stale_spins fuel _ _ c0 (by omega) (by omega)
            (by rw [find_set_other _ _ _ _ ht]; exact h0)
  · intro hfind
    have hstep := hnone hfind
    refine ⟨hstep, ?_⟩
    intro fuel
    rw [update_succ, hstep]
    simp only
    rw [update_succ, update_iteration_idle]

/-- Instance of C22: the package `AF 02 00 01 11` with the verification bytes `5A` and `A5`,
type 2 subscribed. -/
theorem C22_verification_byte_is_ignored_witness :
    (∀ s, (receive_static_part s).1 ≠ .INVAILD_VERIFY_DEGIT) ∧
    ∀ x ∈ [0x5A, 0xA5],
      (∀ container, find_container [(2, PackageContainer.new 1)] 2 = some container →
        update_iteration
            ⟨package_stream 2 0 [0x11] x, [(2, PackageContainer.new 1)],
              ⟨Package.zero.buffer⟩, 0⟩
            = .again ⟨[],
                set_container [(2, PackageContainer.new 1)] 2
                  (container.push (received_package 2 0 [0x11] x Package.zero.buffer)),
                Package.zero, 5 + [0x11].length⟩ ∧
          (find_container [(2, PackageContainer.new 1)] 0 = none →
            ∀ fuel, update (fuel + 3)
                ⟨package_stream 2 0 [0x11] x, [(2, PackageContainer.new 1)],
                  ⟨Package.zero.buffer⟩, 0⟩
              = .returned ⟨[],
                  set_container [(2, PackageContainer.new 1)] 2
                    (container.push (received_package 2 0 [0x11] x Package.zero.buffer)),
                  Package.zero, 0⟩) ∧
          (∀ c0, find_container [(2, PackageContainer.new 1)] 0 = some c0 →
            ∀ fuel, update fuel
                ⟨package_stream 2 0 [0x11] x, [(2, PackageContainer.new 1)],
                  ⟨Package.zero.buffer⟩, 0⟩
              = .out_of_fuel)) ∧
      (find_container [(2, PackageContainer.new 1)] 2 = none →
        update_iteration
            ⟨package_stream 2 0 [0x11] x, [(2, PackageContainer.new 1)],
              ⟨Package.zero.buffer⟩, 0⟩
            = .again ⟨[], [(2, PackageContainer.new 1)],
                received_package 2 0 [0x11] x Package.zero.buffer, 0⟩ ∧
          ∀ fuel, update (fuel + 2)
              ⟨package_stream 2 0 [0x11] x, [(2, PackageContainer.new 1)],
                ⟨Package.zero.buffer⟩, 0⟩
            = .returned ⟨[], [(2, PackageContainer.new 1)],
                received_package 2 0 [0x11] x Package.zero.buffer, 0⟩) :=
  C22_verification_byte_is_ignored [(2, PackageContainer.new 1)] Package.zero.buffer 2 0
    [0x11] 0x5A 0xA5 (by decide)

end usb_cdc

namespace rmcs_core.hardware.forwarder

set_option maxRecDepth 100000

/-! ## Unusable receive completions -/

/-- C11: unusable completion. For every receive completion that is not cancelled and that
carries zero bytes, or has a status other than completed, or whose first byte is not `0xAE`,
an error is logged, no receive callback is invoked, the receive transfer is resubmitted
exactly once and not freed, and the transfer counter keeps its value. -/
theorem C11_unusable_completion (cnt : Int) (status : TransferStatus) (actual_length : Nat)
    (mem uninit : Nat → Nat) (hnc : status ≠ .LIBUSB_TRANSFER_CANCELLED)
    (hbad : actual_length = 0 ∨ status ≠ .LIBUSB_TRANSFER_COMPLETED ∨ mem 0 ≠ 0xAE) :
    ∃ e, usb_receive_complete_callback cnt status actual_length mem uninit
      = some ⟨[], some e, 1, false, cnt⟩ := by
  simp only [usb_receive_complete_callback, if_neg hnc, Nat.zero_add]
  by_cases h0 : 0 = actual_length
  · exact ⟨_, by rw [if_pos h0]⟩
  · rw [if_neg h0]
    by_cases h1 : status ≠ .LIBUSB_TRANSFER_COMPLETED
    · exact ⟨_, by rw [if_pos h1]⟩
    · rw [if_neg h1]
      have h2 : mem 0 ≠ 0xAE := by
        rcases hbad with h | h | h
        · exact absurd h.symm h0
        · exact absurd h h1
        · exact h
      exact ⟨_, by rw [if_pos h2]⟩

/-- Instance of C11: a completed transfer of three bytes that start with `0xAF`. -/
theorem C11_unusable_completion_witness :
    ∃ e, usb_receive_complete_callback 1 .LIBUSB_TRANSFER_COMPLETED 3
        (fun i => [0xAF, 0x22, 0x34].getD i 0) (fun _ => 0)
      = some ⟨[], some e, 1, false, 1⟩ :=
  C11_unusable_completion 1 .LIBUSB_TRANSFER_COMPLETED 3
    (fun i => [0xAF, 0x22, 0x34].getD i 0) (fun _ => 0) (by decide) (by decide)

/-! ## Remote frames -/

/-- C15, as stated, fails: the remote standard frame `0x201` with declared data length 8
added to the pool of one is written as a field of 11 bytes, the last 8 of which are the
data bytes; the logical length grows from 1 to 12, not to 4. -/
theorem C15_counterexample :
    add_can_transmission pool_of_one CommandId.CAN1 0x201 0x1122334455667788 false true 8
      = some (true,
          ⟨⟨1, [⟨0, [0x81, 0x62, 0x01, 0x3A, 0x88, 0x77, 0x66, 0x55, 0x44, 0x33, 0x22, 0x11]
            ++ List.replicate 52 0, 12⟩]⟩, [], 1⟩) := by
  decide

/-- C15, amended: the remote flag has no influence on the size of the field. For every
frame with the remote flag set and every declared data length `n` in 0..8, the field that a
successful `add_can_transmission` writes has `1 + (2 or 4) + n` bytes: the header byte with
the remote flag at bit 5, the identifier word, and the `n` low-order bytes of the data; it
holds no data bytes exactly when `n` is 0. -/
theorem C15_remote_field_has_declared_payload (s s' : TransmitBuffer)
    (field_id can_id can_data : Nat) (is_extended_can_id : Bool) (can_data_length : Nat)
    (_hlen : can_data_length ≤ 8)
    (hbuf : ∀ x ∈ s.free_transfers_.items, x.buffer.length = 64)
    (hadd : add_can_transmission s field_id can_id can_data is_extended_can_id true
      can_data_length = some (true, s')) :
    ∃ old new rest, old ∈ s.free_transfers_.items ∧ s'.free_transfers_.items = new :: rest ∧
      new.length
        = old.length + (1 + (if is_extended_can_id then 4 else 2) + can_data_length) ∧
      getBitField (make_field_header field_id is_extended_can_id true can_data_length) 5 1
        = 1 ∧
      (le_bytes can_data_length can_data).length = can_data_length ∧
      new.buffer = old.buffer.take old.length
        ++ make_field_header field_id is_extended_can_id true can_data_length
          :: ((if is_extended_can_id then
                le_bytes sizeof_CanExtendedId (make_ext_id can_id can_data_length)
              else le_bytes sizeof_CanStandardId (make_std_id can_id can_data_length))
            ++ le_bytes can_data_length can_data)
        ++ old.buffer.drop new.length := by
  obtain ⟨pre, old, rest, hsplit, -, hfit, hs'⟩ :=
    add_can_transmission_true s s' field_id can_id can_data is_extended_can_id true
      can_data_length hadd
  have hmem : old ∈ s.free_transfers_.items := by rw [hsplit]; simp
  have h64 := hbuf old hmem
  have hb := write_field_buffer_split old field_id can_id can_data is_extended_can_id true
    can_data_length (by omega)
  have hfs : field_size_of is_extended_can_id can_data_length
      = 1 + (if is_extended_can_id then 4 else 2) + can_data_length := by
    cases is_extended_can_id <;> rfl
  have hbit := (header_bits (field_id % 16) is_extended_can_id true (can_data_length != 0)
    (Nat.mod_lt _ (by norm_num))).2.1
  rw [← make_field_header_eq] at hbit
  refine ⟨old, write_field old field_id can_id can_data is_extended_can_id true
    can_data_length, rest, hmem, by rw [hs'], ?_, ?_, length_le_bytes _ _, ?_⟩
  · show old.length + field_size_of is_extended_can_id can_data_length = _
    rw [hfs]
  · have hlt : getBitField (make_field_header field_id is_extended_can_id true
        can_data_length) 5 1 < 2 := by
      simp only [getBitField]
      omega
    have hne : getBitField (make_field_header field_id is_extended_can_id true
        can_data_length) 5 1 ≠ 0 := by
      intro h0
      rw [h0] at hbit
      simp at hbit
    omega
  · rw [hb, List.append_assoc]
    rfl

/-- Instance of C15 amended: the remote standard frame `0x201` with declared length 8. -/
theorem C15_remote_field_has_declared_payload_witness :
    ∃ old new rest, old ∈ pool_of_one.free_transfers_.items ∧
      (⟨⟨1, [⟨0, [0x81, 0x62, 0x01, 0x3A, 0x88, 0x77, 0x66, 0x55, 0x44, 0x33, 0x22, 0x11]
          ++ List.replicate 52 0, 12⟩]⟩, [], 1⟩ : TransmitBuffer).free_transfers_.items
        = new :: rest ∧
      new.length = old.length + (1 + (if false then 4 else 2) + 8) ∧
      getBitField (make_field_header CommandId.CAN1 false true 8) 5 1 = 1 ∧
      (le_bytes 8 0x1122334455667788).length = 8 ∧
      new.buffer = old.buffer.take old.length
        ++ make_field_header CommandId.CAN1 false true 8
          :: ((if false then le_bytes sizeof_CanExtendedId (make_ext_id 0x201 8)
              else le_bytes sizeof_CanStandardId (make_std_id 0x201 8))
            ++ le_bytes 8 0x1122334455667788)
        ++ old.buffer.drop new.length :=
  C15_remote_field_has_declared_payload pool_of_one
    ⟨⟨1, [⟨0, [0x81, 0x62, 0x01, 0x3A, 0x88, 0x77, 0x66, 0x55, 0x44, 0x33, 0x22, 0x11]
      ++ List.replicate 52 0, 12⟩]⟩, [], 1⟩
    CommandId.CAN1 0x201 0x1122334455667788 false 8 (by decide) (by decide) (by decide)

/-! ## Flush -/

/-- C17: flush skips empty buffers. `trigger_transmission` returns true, submits the
transfer at the head of the free set as it is and removes it from the free set when the
free set is not empty and the logical length of its head is greater than 1; in every other
case it returns false and leaves the pool unchanged. -/
theorem C17_flush_skips_empty_buffers (s : TransmitBuffer) :
    (∀ t rest, s.free_transfers_.items = t :: rest → 1 < t.length →
      trigger_transmission s
        = (true, ⟨⟨s.free_transfers_.capacity, rest⟩, s.submitted ++ [t],
            s.active_transfer_count_⟩)) ∧
    (s.free_transfers_.items = [] → trigger_transmission s = (false, s)) ∧
    (∀ t rest, s.free_transfers_.items = t :: rest → t.length ≤ 1 →
      trigger_transmission s = (false, s)) := by
  obtain ⟨⟨cap, items⟩, sub, cnt⟩ := s
  refine ⟨?_, ?_, ?_⟩
  · intro t rest h hl
    simp only at h
    subst h
    have : ¬ t.length ≤ 1 := by omega
    simp [trigger_transmission, RingBuffer.front, this, trigger_transmission_nocheck,
      RingBuffer.pop_front]
  · intro h
    simp only at h
    subst h
    simp [trigger_transmission, RingBuffer.front]
  · intro t rest h hl
    simp only at h
    subst h
    simp [trigger_transmission, RingBuffer.front, hl]

/-! ## Reachable pool states -/

theorem trigger_transmission_cases (s : TransmitBuffer) :
    trigger_transmission s = (false, s) ∨
      ∃ t rest, s.free_transfers_.items = t :: rest ∧
        trigger_transmission s
          = (true, ⟨⟨s.free_transfers_.capacity, rest⟩, s.submitted ++ [t],
              s.active_transfer_count_⟩) := by
  obtain ⟨⟨cap, items⟩, sub, cnt⟩ := s
  cases items with
  | nil => left; simp [trigger_transmission, RingBuffer.front]
  | cons t rest =>
    by_cases hl : t.length ≤ 1
    · left; simp [trigger_transmission, RingBuffer.front, hl]
    · right
      exact ⟨t, rest, rfl, by
        simp [trigger_transmission, RingBuffer.front, hl, trigger_transmission_nocheck,
          RingBuffer.pop_front]⟩

theorem mem_tail_append_cons {α : Type} (pre : List α) (x : α) (rest : List α) (y : α)
    (h : y ∈ rest) : y ∈ (pre ++ x :: rest).tail := by
  cases pre with
  | nil => simpa using h
  | cons p pre' => simp [h]

/-- In a reachable state the transfers of the free set and those in flight fit into the
ring together, and every transfer of the free set behind its head has logical length 1. -/
theorem reachable_inv (s : TransmitBuffer) (fl : List Transfer) (h : Reachable s fl) :
    s.free_transfers_.items.length + fl.length ≤ s.free_transfers_.capacity ∧
      ∀ t ∈ s.free_transfers_.items.tail, t.length = 1 := by
  induction h with
  | new cnt N uninit =>
    simp only [TransmitBuffer.new, push_back_multi_items _ _ N (le_refl _)]
    refine ⟨by simp, ?_⟩
    intro t ht
    have ht' := List.mem_of_mem_tail ht
    simp only [List.mem_map] at ht'
    obtain ⟨i, -, rfl⟩ := ht'
    rfl
  | add s s' fl field_id can_id can_data e r n b _ hadd ih =>
    obtain ⟨ih1, ih2⟩ := ih
    cases b with
    | true =>
      obtain ⟨pre, old, rest, hsplit, -, -, hs'⟩ :=
        add_can_transmission_true s s' field_id can_id can_data e r n hadd
      subst hs'
      simp only [List.drop_left, List.length_append, List.length_cons, List.tail_cons]
      rw [hsplit] at ih1 ih2
      simp only [List.length_append, List.length_cons] at ih1
      refine ⟨by omega, ?_⟩
      intro t ht
      exact ih2 t (mem_tail_append_cons pre old rest t ht)
    | false =>
      obtain ⟨-, hs'⟩ := add_can_transmission_false s s' field_id can_id can_data e r n hadd
      subst hs'
      simp only [List.drop_left, List.length_append, List.length_nil, List.tail_nil]
      refine ⟨by omega, ?_⟩
      intro t ht
      simp at ht
  | flush s fl _ ih =>
    obtain ⟨ih1, ih2⟩ := ih
    rcases trigger_transmission_cases s with h | ⟨t, rest, hitems, h⟩
    · rw [h]
      simp only [List.drop_length, List.append_nil]
      exact ⟨ih1, ih2⟩
    · rw [h]
      simp only [List.drop_left, List.length_append, List.length_singleton]
      rw [hitems] at ih1 ih2
      simp only [List.length_cons, List.tail_cons] at ih1 ih2
      refine ⟨by omega, ?_⟩
      intro x hx
      exact ih2 x (List.mem_of_mem_tail hx)
  | complete s fl transfer status actual_length _ hmem ih =>
    obtain ⟨ih1, ih2⟩ := ih
    have hpos : 0 < fl.length := List.length_pos_of_mem hmem
    have herase : (fl.erase transfer).length = fl.length - 1 := List.length_erase_of_mem hmem
    by_cases hc : status = .LIBUSB_TRANSFER_CANCELLED
    · simp only [usb_transmit_complete_callback, if_pos hc, herase]
      exact ⟨by omega, ih2⟩
    · have hroom : s.free_transfers_.items.length < s.free_transfers_.capacity := by omega
      simp only [usb_transmit_complete_callback, if_neg hc, RingBuffer.push_back,
        if_pos hroom, herase, List.length_append, List.length_singleton]
      refine ⟨by omega, ?_⟩
      intro t ht
      cases hi : s.free_transfers_.items with
      | nil => rw [hi] at ht; simp at ht
      | cons x xs =>
        rw [hi] at ht ih2
        simp only [List.cons_append, List.tail_cons, List.mem_append,
          List.mem_singleton] at ht ih2
        rcases ht with ht | rfl
        · exact ih2 t ht
        · rfl

theorem field_size_of_le (e : Bool) (n : Nat) (hn : n ≤ 8) : field_size_of e n ≤ 13 := by
  cases e <;>
    simp only [field_size_of, sizeof_FieldHeader, sizeof_CanExtendedId, sizeof_CanStandardId,
      Bool.false_eq_true, if_false, if_true] <;> omega

/-- C16: transmit completion recycles the buffer. In every reachable pool state, for every
transfer in flight and every transmitted length: a completion that is not cancelled changes
nothing but the free set, to whose tail it appends the transfer with logical length 1 (the
warning is logged exactly when the transmitted length differs from the requested one); a
cancelled completion changes nothing but the transfer counter, which decreases by 1. -/
theorem C16_transmit_completion_recycles (s : TransmitBuffer) (fl : List Transfer)
    (transfer : Transfer) (status : TransferStatus) (actual_length : Nat)
    (hr : Reachable s fl) (hmem : transfer ∈ fl) :
    (status ≠ .LIBUSB_TRANSFER_CANCELLED →
      usb_transmit_complete_callback s transfer status actual_length
        = (⟨⟨s.free_transfers_.capacity,
              s.free_transfers_.items ++ [⟨transfer.handle, transfer.buffer, 1⟩]⟩,
            s.submitted, s.active_transfer_count_⟩,
          decide (actual_length ≠ transfer.length))) ∧
    (status = .LIBUSB_TRANSFER_CANCELLED →
      usb_transmit_complete_callback s transfer status actual_length
        = (⟨s.free_transfers_, s.submitted, s.active_transfer_count_ - 1⟩, false)) := by
  obtain ⟨h1, -⟩ := reachable_inv s fl hr
  have hpos : 0 < fl.length := List.length_pos_of_mem hmem
  have hroom : s.free_transfers_.items.length < s.free_transfers_.capacity := by omega
  refine ⟨?_, ?_⟩
  · intro hc
    simp only [usb_transmit_complete_callback, if_neg hc, RingBuffer.push_back, if_pos hroom]
  · intro hc
    simp only [usb_transmit_complete_callback, if_pos hc]

/-- Instance of C16: the transfer of a pool of one, submitted with one field, completes. -/
theorem C16_transmit_completion_recycles_witness :
    (TransferStatus.LIBUSB_TRANSFER_COMPLETED ≠ .LIBUSB_TRANSFER_CANCELLED →
      usb_transmit_complete_callback (trigger_transmission pool_of_one_after).2
          ⟨0, [0x81, 0x42, 0x01, 0x3A, 0x88, 0x77, 0x66, 0x55, 0x44, 0x33, 0x22, 0x11]
            ++ List.replicate 52 0, 12⟩ .LIBUSB_TRANSFER_COMPLETED 10
        = (⟨⟨(trigger_transmission pool_of_one_after).2.free_transfers_.capacity,
              (trigger_transmission pool_of_one_after).2.free_transfers_.items
                ++ [⟨0, [0x81, 0x42, 0x01, 0x3A, 0x88, 0x77, 0x66, 0x55, 0x44, 0x33, 0x22, 0x11]
                  ++ List.replicate 52 0, 1⟩]⟩,
            (trigger_transmission pool_of_one_after).2.submitted,
            (trigger_transmission pool_of_one_after).2.active_transfer_count_⟩,
          decide (10 ≠ 12))) ∧
    (TransferStatus.LIBUSB_TRANSFER_COMPLETED = .LIBUSB_TRANSFER_CANCELLED →
      usb_transmit_complete_callback (trigger_transmission pool_of_one_after).2
          ⟨0, [0x81, 0x42, 0x01, 0x3A, 0x88, 0x77, 0x66, 0x55, 0x44, 0x33, 0x22, 0x11]
            ++ List.replicate 52 0, 12⟩ .LIBUSB_TRANSFER_COMPLETED 10
        = (⟨(trigger_transmission pool_of_one_after).2.free_transfers_,
            (trigger_transmission pool_of_one_after).2.submitted,
            (trigger_transmission pool_of_one_after).2.active_transfer_count_ - 1⟩, false)) :=
  C16_transmit_completion_recycles (trigger_transmission pool_of_one_after).2
    (([] ++ pool_of_one_after.submitted.drop
        (TransmitBuffer.new 0 1 (fun _ _ => 0)).submitted.length)
      ++ (trigger_transmission pool_of_one_after).2.submitted.drop
        pool_of_one_after.submitted.length)
    ⟨0, [0x81, 0x42, 0x01, 0x3A, 0x88, 0x77, 0x66, 0x55, 0x44, 0x33, 0x22, 0x11]
      ++ List.replicate 52 0, 12⟩ .LIBUSB_TRANSFER_COMPLETED 10
    (Reachable.flush _ _
      (Reachable.add (TransmitBuffer.new 0 1 (fun _ _ => 0)) pool_of_one_after []
        CommandId.CAN1 0x201 0x1122334455667788 false false 8 true
        (Reachable.new 0 1 (fun _ _ => 0)) (by decide)))
    (by decide)

/-- C19: exactly one flush on overflow. In every reachable pool state whose free set has the
head `head` and the rest `rest`, for every frame with data length 0..8: when the logical
length of the head plus the field size exceeds 64, the call submits the head as it is and
nothing else, then writes the frame into the next transfer of the free set and returns true,
or returns false when there is no next transfer; when the field fits, the call submits
nothing, writes the frame into the head and returns true. -/
theorem C19_exactly_one_flush_on_overflow (s : TransmitBuffer) (fl : List Transfer)
    (head : Transfer) (rest : List Transfer) (field_id can_id can_data : Nat)
    (is_extended_can_id is_remote_transmission : Bool) (can_data_length : Nat)
    (hr : Reachable s fl) (hitems : s.free_transfers_.items = head :: rest)
    (hlen : can_data_length ≤ 8) :
    (64 < head.length + field_size_of is_extended_can_id can_data_length →
      (rest = [] →
        add_can_transmission s field_id can_id can_data is_extended_can_id
            is_remote_transmission can_data_length
          = some (false, ⟨⟨s.free_transfers_.capacity, []⟩, s.submitted ++ [head],
              s.active_transfer_count_⟩)) ∧
      (∀ t rest', rest = t :: rest' →
        add_can_transmission s field_id can_id can_data is_extended_can_id
            is_remote_transmission can_data_length
          = some (true, ⟨⟨s.free_transfers_.capacity,
                write_field t field_id can_id can_data is_extended_can_id
                  is_remote_transmission can_data_length :: rest'⟩,
              s.submitted ++ [head], s.active_transfer_count_⟩))) ∧
    (head.length + field_size_of is_extended_can_id can_data_length ≤ 64 →
      add_can_transmission s field_id can_id can_data is_extended_can_id
          is_remote_transmission can_data_length
        = some (true, ⟨⟨s.free_transfers_.capacity,
              write_field head field_id can_id can_data is_extended_can_id
                is_remote_transmission can_data_length :: rest⟩,
            s.submitted, s.active_transfer_count_⟩)) := by
  obtain ⟨-, h2⟩ := reachable_inv s fl hr
  have hfs := field_size_of_le is_extended_can_id can_data_length hlen
  obtain ⟨⟨cap, items⟩, sub, cnt⟩ := s
  simp only at hitems
  subst hitems
  refine ⟨?_, ?_⟩
  · intro hover
    refine ⟨?_, ?_⟩
    · intro hrest
      subst hrest
      simp [add_can_transmission, add_can_transmission_loop, RingBuffer.front, hover,
        trigger_transmission_nocheck, RingBuffer.pop_front]
    · intro t rest' hrest
      subst hrest
      have ht : t.length = 1 := h2 t (by simp)
      have hfit : ¬ 64 < t.length + field_size_of is_extended_can_id can_data_length := by
        omega
      simp [add_can_transmission, add_can_transmission_loop, RingBuffer.front, hover,
        trigger_transmission_nocheck, RingBuffer.pop_front, hfit]
  · intro hfit
    have hnot : ¬ 64 < head.length + field_size_of is_extended_can_id can_data_length := by
      omega
    simp [add_can_transmission, add_can_transmission_loop, RingBuffer.front, hnot]

theorem reachable_add_frames : ∀ (frames : List CanFrame) (s s' : TransmitBuffer)
    (fl : List Transfer) (bs : List Bool), Reachable s fl →
    add_frames s frames = some (bs, s') → ∃ fl', Reachable s' fl' := by
  intro frames
  induction frames with
  | nil =>
    intro s s' fl bs hr h
    simp only [add_frames, Option.some.injEq, Prod.mk.injEq] at h
    obtain ⟨-, rfl⟩ := h
    exact ⟨fl, hr⟩
  | cons f fs ih =>
    intro s s' fl bs hr h
    simp only [add_frames] at h
    cases hstep : add_frame s f with
    | none => rw [hstep] at h; simp at h
    | some r =>
      rw [hstep] at h
      simp only [Option.map_eq_some'] at h
      obtain ⟨q, hq, hqq⟩ := h
      simp only [Prod.mk.injEq] at hqq
      obtain ⟨-, rfl⟩ := hqq
      obtain ⟨b, s1⟩ := r
      obtain ⟨bs', s2⟩ := q
      exact ih s1 s2 _ bs'
        (Reachable.add s s1 fl f.field_id f.can_id f.can_data f.is_extended_can_id
          f.is_remote_transmission f.can_data_length b hr hstep) hq

/-- Instance of C19: a further standard frame of eight bytes on the pool of two whose head
holds 56 bytes. -/
theorem C19_exactly_one_flush_on_overflow_witness :
    (64 < (⟨0, 0x81 :: fields_bytes (List.replicate 5 frame_std8) ++ List.replicate 8 0, 56⟩ :
          Transfer).length + field_size_of false 8 →
      (([⟨1, 0x81 :: List.replicate 63 0, 1⟩] : List Transfer) = [] →
        add_can_transmission pool_of_two_full CommandId.CAN1 0x201 0x1122334455667788 false
            false 8
          = some (false, ⟨⟨pool_of_two_full.free_transfers_.capacity, []⟩,
              pool_of_two_full.submitted
                ++ [⟨0, 0x81 :: fields_bytes (List.replicate 5 frame_std8)
                  ++ List.replicate 8 0, 56⟩],
              pool_of_two_full.active_transfer_count_⟩)) ∧
      (∀ t rest', ([⟨1, 0x81 :: List.replicate 63 0, 1⟩] : List Transfer) = t :: rest' →
        add_can_transmission pool_of_two_full CommandId.CAN1 0x201 0x1122334455667788 false
            false 8
          = some (true, ⟨⟨pool_of_two_full.free_transfers_.capacity,
                write_field t CommandId.CAN1 0x201 0x1122334455667788 false false 8 :: rest'⟩,
              pool_of_two_full.submitted
                ++ [⟨0, 0x81 :: fields_bytes (List.replicate 5 frame_std8)
                  ++ List.replicate 8 0, 56⟩],
              pool_of_two_full.active_transfer_count_⟩))) ∧
    ((⟨0, 0x81 :: fields_bytes (List.replicate 5 frame_std8) ++ List.replicate 8 0, 56⟩ :
          Transfer).length + field_size_of false 8 ≤ 64 →
      add_can_transmission pool_of_two_full CommandId.CAN1 0x201 0x1122334455667788 false
          false 8
        = some (true, ⟨⟨pool_of_two_full.free_transfers_.capacity,
              write_field
                  ⟨0, 0x81 :: fields_bytes (List.replicate 5 frame_std8)
                    ++ List.replicate 8 0, 56⟩
                  CommandId.CAN1 0x201 0x1122334455667788 false false 8
                :: [⟨1, 0x81 :: List.replicate 63 0, 1⟩]⟩,
            pool_of_two_full.submitted, pool_of_two_full.active_transfer_count_⟩)) := by
  obtain ⟨fl, hfl⟩ := reachable_add_frames (List.replicate 5 frame_std8)
    (TransmitBuffer.new 0 2 (fun _ _ => 0)) pool_of_two_full [] [true, true, true, true, true]
    (Reachable.new 0 2 (fun _ _ => 0)) (by decide)
  exact C19_exactly_one_flush_on_overflow pool_of_two_full fl
    ⟨0, 0x81 :: fields_bytes (List.replicate 5 frame_std8) ++ List.replicate 8 0, 56⟩
    [⟨1, 0x81 :: List.replicate 63 0, 1⟩] CommandId.CAN1 0x201 0x1122334455667788 false false 8
    hfl (by decide) (by decide)

/-! ## Pack and walk -/

theorem field_size_of_ge (e : Bool) (n : Nat) : 3 ≤ field_size_of e n := by
  cases e <;>
    simp only [field_size_of, sizeof_FieldHeader, sizeof_CanExtendedId, sizeof_CanStandardId,
      Bool.false_eq_true, if_false, if_true] <;> omega

theorem field_walk_fields (uninit : Nat → Nat) : ∀ (frames : List CanFrame)
    (a stale : List Nat),
    (∀ f ∈ frames, (f.field_id = CommandId.CAN1 ∨ f.field_id = CommandId.CAN2) ∧
      f.can_id < (if f.is_extended_can_id then 2 ^ 29 else 2 ^ 11) ∧ f.can_data_length ≤ 8) →
    field_walk (fun i => (a ++ (fields_bytes frames ++ stale)).getD i 0)
        (a.length + fields_size frames) uninit (frames.length + 1) a.length
      = some (expected_calls uninit a.length frames, a.length + fields_size frames) := by
  intro frames
  induction frames with
  | nil =>
    intro a stale _
    simp only [fields_size, Nat.add_zero, List.length_nil, Nat.zero_add]
    rw [field_walk_succ, if_neg (Nat.lt_irrefl _)]
    rfl
  | cons f fs ih =>
    intro a stale hvalid
    obtain ⟨hbus, hid, hlen⟩ := hvalid f (List.mem_cons_self _ _)
    have hrest : ∀ g ∈ fs, (g.field_id = CommandId.CAN1 ∨ g.field_id = CommandId.CAN2) ∧
        g.can_id < (if g.is_extended_can_id then 2 ^ 29 else 2 ^ 11) ∧
        g.can_data_length ≤ 8 := fun g hg => hvalid g (List.mem_cons_of_mem _ hg)
    have hge := field_size_of_ge f.is_extended_can_id f.can_data_length
    have hmemeq : (fun i => (a ++ (fields_bytes (f :: fs) ++ stale)).getD i 0)
        = fun i => (a ++ (field_bytes f.field_id f.can_id f.can_data f.is_extended_can_id
            f.is_remote_transmission f.can_data_length ++ (fields_bytes fs ++ stale))).getD i 0 := by
      simp only [fields_bytes, List.append_assoc]
    have hmemeq2 : (fun i => (a ++ (fields_bytes (f :: fs) ++ stale)).getD i 0)
        = fun i => ((a ++ field_bytes f.field_id f.can_id f.can_data f.is_extended_can_id
            f.is_remote_transmission f.can_data_length) ++ (fields_bytes fs ++ stale)).getD i 0 := by
      simp only [fields_bytes, List.append_assoc]
    have hread := fun cb => read_can_buffer_field_bytes a (fields_bytes fs ++ stale) f.field_id
      f.can_id f.can_data f.is_extended_can_id f.is_remote_transmission f.can_data_length
      cb (uninit a.length) hid hlen
    have hhead : (fun i => (a ++ (fields_bytes (f :: fs) ++ stale)).getD i 0) a.length
        = make_field_header f.field_id f.is_extended_can_id f.is_remote_transmission
            f.can_data_length := by
      rw [hmemeq]
      exact (mem_field a _ _ (fields_bytes fs ++ stale) _).1
    have htag : getBitField ((fun i => (a ++ (fields_bytes (f :: fs) ++ stale)).getD i 0)
        a.length) 0 4 = f.field_id % 16 := by
      rw [hhead, make_field_header_eq]
      exact (header_bits (f.field_id % 16) _ _ _ (Nat.mod_lt _ (by norm_num))).2.2.2
    have hlen2 : (a ++ field_bytes f.field_id f.can_id f.can_data f.is_extended_can_id
        f.is_remote_transmission f.can_data_length).length
          = a.length + field_size_of f.is_extended_can_id f.can_data_length := by
      rw [List.length_append, length_field_bytes]
    have hih := ih (a ++ field_bytes f.field_id f.can_id f.can_data f.is_extended_can_id
        f.is_remote_transmission f.can_data_length) stale hrest
    rw [← hmemeq2, hlen2] at hih
    have hsent : a.length + fields_size (f :: fs)
        = a.length + field_size_of f.is_extended_can_id f.can_data_length + fields_size fs := by
      simp only [fields_size]; omega
    rw [List.length_cons, field_walk_succ, if_pos (by rw [hsent]; omega), htag]
    rw [hsent]
    rcases hbus with hb | hb
    · have h1 : f.field_id % 16 = StatusId.CAN1 := by rw [hb]; decide
      rw [if_pos h1]
      have hr := hread .can1_receive_callback
      rw [← hmemeq] at hr
      rw [hr]
      simp only
      rw [hih]
      simp only [Option.map_some', expected_calls, if_pos hb]
    · have h1 : ¬ f.field_id % 16 = StatusId.CAN1 := by rw [hb]; decide
      have h2 : f.field_id % 16 = StatusId.CAN2 := by rw [hb]; decide
      have hb1 : ¬ f.field_id = CommandId.CAN1 := by rw [hb]; decide
      rw [if_neg h1, if_pos h2]
      have hr := hread .can2_receive_callback
      rw [← hmemeq] at hr
      rw [hr]
      simp only
      rw [hih]
      simp only [Option.map_some', expected_calls, if_neg hb1]

theorem map_frame_of_call_expected (uninit : Nat → Nat) : ∀ (frames : List CanFrame) (p : Nat),
    (∀ f ∈ frames, (f.field_id = CommandId.CAN1 ∨ f.field_id = CommandId.CAN2) ∧
      f.can_id < (if f.is_extended_can_id then 2 ^ 29 else 2 ^ 11) ∧ f.can_data_length ≤ 8) →
    (expected_calls uninit p frames).map frame_of_call = frames.map frame_payload := by
  intro frames
  induction frames with
  | nil => intro p _; rfl
  | cons f fs ih =>
    intro p hvalid
    obtain ⟨hbus, -, -⟩ := hvalid f (List.mem_cons_self _ _)
    have hrest := ih (p + field_size_of f.is_extended_can_id f.can_data_length)
      (fun g hg => hvalid g (List.mem_cons_of_mem _ hg))
    simp only [expected_calls, List.map_cons, hrest, List.cons.injEq, and_true]
    obtain ⟨fid, cid, cdata, e, r, n⟩ := f
    simp only at hbus
    simp only [frame_of_call, frame_payload, Nat.add_mul_mod_self_right, Nat.mod_mod]
    rcases hbus with hb | hb
    · subst hb
      simp
    · subst hb
      simp [CommandId.CAN1, CommandId.CAN2]


/-- C23, amended: pack/walk round trip. For every non-empty sequence of CAN1/CAN2 frames
(identifiers in range, data lengths 0..8) whose fields total at most 63 bytes, added to a
pool whose head transfer is empty (logical length 1): every call returns true, nothing is
submitted, all fields are in the head transfer, and the receive completion over the bytes
of that transfer with byte 0 replaced by `0xAE` invokes one callback per frame, in call
order, on the bus of the frame, with its identifier, flags, data length and data bytes, ends
exactly on the last byte and logs no error. -/
theorem C23_pack_walk_round_trip (cnt : Int) (s : TransmitBuffer) (t : Transfer)
    (rest : List Transfer) (frames : List CanFrame) (stale : List Nat) (uninit : Nat → Nat)
    (hs : s.free_transfers_.items = t :: rest) (ht : t.length = 1)
    (hbuf : t.buffer.length = 64) (hne : frames ≠ [])
    (hvalid : ∀ f ∈ frames, (f.field_id = CommandId.CAN1 ∨ f.field_id = CommandId.CAN2) ∧
      f.can_id < (if f.is_extended_can_id then 2 ^ 29 else 2 ^ 11) ∧ f.can_data_length ≤ 8)
    (htotal : fields_size frames ≤ 63) :
    ∃ s' t', add_frames s frames = some (List.replicate frames.length true, s') ∧
      s'.free_transfers_.items = t' :: rest ∧ s'.submitted = s.submitted ∧
      t'.length = 1 + fields_size frames ∧
      usb_receive_complete_callback cnt .LIBUSB_TRANSFER_COMPLETED t'.length
          (received_from t' stale) uninit
        = some ⟨expected_calls uninit 1 frames, none, 1, false, cnt⟩ ∧
      (expected_calls uninit 1 frames).map frame_of_call = frames.map frame_payload := by
  obtain ⟨t', hrun, -, hl, hb⟩ := add_frames_fit frames s t rest hs hbuf (by omega)
  rw [ht] at hl hb
  have hpos := fields_size_pos frames hne
  obtain ⟨b0, tl, hbt⟩ : ∃ b0 tl, t.buffer = b0 :: tl := by
    cases hcase : t.buffer with
    | nil => rw [hcase] at hbuf; simp at hbuf
    | cons b0 tl => exact ⟨b0, tl, rfl⟩
  have htake : t'.buffer.take t'.length = b0 :: fields_bytes frames := by
    rw [hb, hl, hbt]
    simp only [List.take_succ_cons, List.take_zero, List.singleton_append,
      Nat.add_comm 1 (fields_size frames), List.cons.injEq, true_and]
    rw [← length_fields_bytes frames, List.take_left]
  have hmem : received_from t' stale
      = fun i => ([0xAE] ++ (fields_bytes frames ++ stale)).getD i 0 := by
    funext i
    simp only [received_from, htake, List.set_cons_zero, List.singleton_append,
      List.cons_append, List.nil_append]
  have hwalk := field_walk_fields uninit frames [0xAE] stale hvalid
  simp only [List.length_singleton] at hwalk
  rw [← hmem, ← hl] at hwalk
  have h0 : received_from t' stale 0 = 0xAE := by rw [hmem]; rfl
  refine ⟨_, t', hrun, rfl, rfl, hl, ?_, map_frame_of_call_expected uninit frames 1 hvalid⟩
  rw [usb_receive_walk cnt t'.length _ uninit h0 (by omega) _ _ _ hwalk]
  simp


/-- Instance of C23 amended: a standard frame for CAN1 and an extended frame for CAN2 on the
pool of one. -/
theorem C23_pack_walk_round_trip_witness :
    ∃ s' t', add_frames pool_of_one [frame_std8, frame_ext8]
        = some (List.replicate [frame_std8, frame_ext8].length true, s') ∧
      s'.free_transfers_.items = t' :: [] ∧ s'.submitted = pool_of_one.submitted ∧
      t'.length = 1 + fields_size [frame_std8, frame_ext8] ∧
      usb_receive_complete_callback 1 .LIBUSB_TRANSFER_COMPLETED t'.length
          (received_from t' [0x99]) (fun _ => 0)
        = some ⟨expected_calls (fun _ => 0) 1 [frame_std8, frame_ext8], none, 1, false, 1⟩ ∧
      (expected_calls (fun _ => 0) 1 [frame_std8, frame_ext8]).map frame_of_call
        = [frame_std8, frame_ext8].map frame_payload :=
  C23_pack_walk_round_trip 1 pool_of_one ⟨0, 0x81 :: List.replicate 63 0, 1⟩ []
    [frame_std8, frame_ext8] [0x99] (fun _ => 0) (by decide) (by decide) (by decide)
    (by decide) (by decide) (by decide)

/-- C23, as stated, fails for the empty sequence: nothing is added to the pool of one, its
transfer has logical length 1, and the receive completion over that one byte replaced by
`0xAE` logs the error for a package without body. -/
theorem C23_counterexample :
    add_frames pool_of_one [] = some ([], pool_of_one) ∧
      usb_receive_complete_callback 1 .LIBUSB_TRANSFER_COMPLETED
          (⟨0, 0x81 :: List.replicate 63 0, 1⟩ : Transfer).length
          (received_from ⟨0, 0x81 :: List.replicate 63 0, 1⟩ []) (fun _ => 0)
        = some ⟨[], some .package_without_body, 1, false, 1⟩ := by
  decide

end rmcs_core.hardware.forwarder
